import Mathlib

/-!
Verification of the strudel-bop session engine and pattern codec.

The definitions below are shallow embeddings of the JavaScript source:
* `src/src/useStrudel.js` (and its variant in `src/unnamed/part_000`):
  the session engine (`play`, `stopTrack`, `stop`, `hush`, `setCps`) and
  the App-level tempo handler `handleTempoChange`.
* `src/src/components/SequenceModal.jsx`: the parameter round-trip codec
  (`extractParameters`, `updateCodeParameter`, `parsePatternFromCode`,
  `generatePatternCode`).

JavaScript numbers are modelled as rationals (`ℚ`), strings as Lean
`String`/`List Char`, the runtime (`repl.evaluate`, sample preload,
`repl.setCps`, `repl.stop`) as an emitted event trace plus boolean
oracles (`preloadOk`, `evalOk`) deciding whether the awaited runtime
calls resolve or reject.
-/

namespace StrudelBop

/-- The runtime calls issued by the session engine, in order.
`evalEv code reset hushFirst` models `repl.evaluate(code, reset, hushFirst)`
(absent flags are `false`, matching JS `undefined` being falsy);
`preload url` models `samplesFunction({ _smp: url })`;
`setCpsEv v` models `repl.setCps(v)`; `stopEv` models `repl.stop()`. -/
inductive REvent where
  | preload (url : String)
  | evalEv (code : String) (reset hushFirst : Bool)
  | setCpsEv (cps : ℚ)
  | stopEv
deriving DecidableEq, Repr

/-- Session state owned by `useStrudel`:
`store` is `trackPatternsRef.current` (a JS object: an insertion-ordered
map from track id to pattern fragment; track ids in this app are
non-numeric strings, so JS preserves insertion order),
`active` is the module-level `activeTracks` Set (insertion-ordered),
`isPlaying` and `error` are the React states of the same names. -/
structure SessionState where
  store : List (String × String)
  active : List String
  isPlaying : Bool
  error : Option String
deriving DecidableEq, Repr

/-- The initial session state: nothing stored, nothing active. -/
def initState : SessionState := ⟨[], [], false, none⟩

/-- Result of one engine operation: the new state, the runtime calls
issued, and the boolean the JS function returned (`true` on success). -/
structure StepResult where
  state : SessionState
  events : List REvent
  ok : Bool
deriving DecidableEq, Repr

/-- `trackPatternsRef.current[trackId] = patternCode` on a JS object:
insert-or-replace preserving the insertion position of an existing key,
appending a new key at the end. -/
def insertOrReplace : List (String × String) → String → String → List (String × String)
  | [], id, v => [(id, v)]
  | (k, w) :: t, id, v =>
    if k = id then (k, v) :: t else (k, w) :: insertOrReplace t id v

/-- `activeTracks.add(trackId)` on a JS Set: no-op if present, else append. -/
def addActive (l : List String) (id : String) : List String :=
  if id ∈ l then l else l ++ [id]

/-- `delete trackPatternsRef.current[trackId]`: drop the key, keep order. -/
def eraseKey (l : List (String × String)) (id : String) : List (String × String) :=
  l.filter (fun p => p.1 ≠ id)

/-- `activeTracks.delete(trackId)`. -/
def eraseActive (l : List String) (id : String) : List String :=
  l.filter (fun x => x ≠ id)

/-- JS `Array.prototype.join(sep)`. -/
def joinSep (sep : String) : List String → String
  | [] => ""
  | [a] => a
  | a :: b :: rest => a ++ sep ++ joinSep sep (b :: rest)

/-- JS `\s` for the strings this app handles (ASCII whitespace). -/
def isWS (c : Char) : Bool := c = ' ' || c = '\t' || c = '\n' || c = '\r'

/-- JS `String.prototype.trim()`: strip whitespace from both ends. -/
def jsTrim (s : String) : String :=
  String.mk (((s.data.dropWhile isWS).reverse.dropWhile isWS).reverse)

/-- Helper for `split('\n')`. -/
def splitNlAux : List Char → List Char → List (List Char)
  | [], acc => [acc.reverse]
  | c :: rest, acc =>
    if c = '\n' then acc.reverse :: splitNlAux rest []
    else splitNlAux rest (c :: acc)

/-- JS `code.split('\n')`: pieces between newline characters (empty
pieces preserved; a sole empty string for the empty input). -/
def splitNl (s : String) : List String := (splitNlAux s.data []).map String.mk

/-- JS `line.startsWith('setcps(')`. -/
def startsWithSetcps (s : String) : Bool := "setcps(".data.isPrefixOf s.data

/-- The `setcps` extraction at the top of `play`:
```
const lines = code.trim().split('\n');
let setCpsLine = ''; let patternCode = code.trim();
if (lines[0].trim().startsWith('setcps(')) {
  setCpsLine = lines[0];
  patternCode = lines.slice(1).join('\n').trim();
}
```
Returns `(setCpsLine, patternCode)`. -/
def splitSetCps (code : String) : String × String :=
  let lines := splitNl (jsTrim code)
  if startsWithSetcps (jsTrim (lines.headD "")) then
    (lines.headD "", jsTrim (joinSep "\n" lines.tail))
  else
    ("", jsTrim code)

/-- The combination step shared by `play` and `stopTrack`:
one fragment is played verbatim, several are wrapped in `stack(...)`;
a non-empty `setCpsLine` is prefixed followed by `";\n"`. -/
def buildCombined (setCpsLine : String) (ps : List String) : String :=
  if ps.length == 1 then
    if setCpsLine ≠ "" then setCpsLine ++ ";\n" ++ ps.headD "" else ps.headD ""
  else
    let stacked := joinSep ",\n  " (ps.map (fun p => "(" ++ p ++ ")"))
    let body := "stack(\n  " ++ stacked ++ "\n)"
    if setCpsLine ≠ "" then setCpsLine ++ ";\n" ++ body else body

/-- The `play` callback of `useStrudel` (the session already initialized):
optionally preloads `sampleUrl` (aborting with a reported error and no
state change when the preload rejects, per the `try/catch` around
`samplesFunction` in `src/unnamed/part_000`), strips a leading
`setcps(` line, clears everything in exclusive mode, stores the
fragment, rebuilds the combined program and evaluates it with
`(true, true)` flags. On evaluation failure the error is reported and
`false` returned, but the store/active mutations (made before the
`await`) remain. -/
def play (σ : SessionState) (code trackId : String) (exclusive : Bool)
    (sampleUrl : Option String) (preloadOk evalOk : Bool) : StepResult :=
  -- setError(null)
  let σ0 : SessionState := { σ with error := none }
  let core : SessionState → List REvent → StepResult := fun σ1 pre =>
    let scl := (splitSetCps code).1
    let patternCode := (splitSetCps code).2
    let σ2 : SessionState :=
      if exclusive then { σ1 with store := [], active := [] } else σ1
    let store' := insertOrReplace σ2.store trackId patternCode
    let active' := addActive σ2.active trackId
    let combined := buildCombined scl (store'.map Prod.snd)
    let ev := REvent.evalEv combined true true
    if evalOk then
      { state := { store := store', active := active', isPlaying := true,
                   error := none },
        events := pre ++ [ev], ok := true }
    else
      { state := { store := store', active := active',
                   isPlaying := σ1.isPlaying, error := some "Play error" },
        events := pre ++ [ev], ok := false }
  match sampleUrl with
  | some url =>
      if preloadOk then core σ0 [REvent.preload url]
      else { state := { σ0 with error := some "Failed to load sample" },
             events := [REvent.preload url], ok := false }
  | none => core σ0 []

/-- The `stopTrack` callback. With a track id it deletes the track and
either hushes (when no track remains) or re-evaluates the remaining
stack; with no id it hushes and clears everything. A rejected
`evaluate` is caught: mutations made before the `await` stay, the ones
after it are skipped. `ok` records whether the runtime call resolved
(the JS function itself returns `undefined`). -/
def stopTrack (σ : SessionState) (trackId : Option String) (evalOk : Bool) :
    StepResult :=
  match trackId with
  | some id =>
      let store' := eraseKey σ.store id
      let active' := eraseActive σ.active id
      if active'.isEmpty then
        if evalOk then
          { state := { store := store', active := active', isPlaying := false,
                       error := σ.error },
            events := [REvent.evalEv "hush()" false false], ok := true }
        else
          { state := { store := store', active := active',
                       isPlaying := σ.isPlaying, error := σ.error },
            events := [REvent.evalEv "hush()" false false], ok := false }
      else
        let combined := buildCombined "" (store'.map Prod.snd)
        { state := { σ with store := store', active := active' },
          events := [REvent.evalEv combined true true], ok := evalOk }
  | none =>
      if evalOk then
        { state := { store := [], active := [], isPlaying := false,
                     error := σ.error },
          events := [REvent.evalEv "hush()" false false], ok := true }
      else
        { state := σ, events := [REvent.evalEv "hush()" false false],
          ok := false }

/-- The `stop` callback: `repl.stop()`, clear the active set, mark
not-playing. Note it does not clear `trackPatternsRef`. -/
def stopOp (σ : SessionState) : StepResult :=
  { state := { σ with active := [], isPlaying := false },
    events := [REvent.stopEv], ok := true }

/-- The `hush` callback: evaluate `hush()`, then clear everything and
mark not-playing (skipped when the evaluation rejects). -/
def hushOp (σ : SessionState) (evalOk : Bool) : StepResult :=
  if evalOk then
    { state := { store := [], active := [], isPlaying := false,
                 error := σ.error },
      events := [REvent.evalEv "hush()" false false], ok := true }
  else
    { state := σ, events := [REvent.evalEv "hush()" false false], ok := false }

/-- The `setCps` callback: pushes the value to the runtime, touching no
session state. -/
def setCpsOp (σ : SessionState) (cps : ℚ) : StepResult :=
  { state := σ, events := [REvent.setCpsEv cps], ok := true }

/-- `handleTempoChange` in App (src/unnamed/part_000): when playing with
a non-empty active set, looks up the first active track id in the
sequence list (pairs of id and declared bpm) and pushes
`(bpm / 240) * (newTempo / 100)` via `setCps`. -/
def handleTempoChange (sequences : List (String × ℚ)) (σ : SessionState)
    (newTempo : ℚ) : StepResult :=
  if σ.isPlaying = true ∧ ¬ σ.active.isEmpty then
    match sequences.find? (fun s => s.1 = σ.active.headD "") with
    | some sq => setCpsOp σ (sq.2 / 240 * (newTempo / 100))
    | none => { state := σ, events := [], ok := true }
  else { state := σ, events := [], ok := true }

/-! ## Parameter round-trip codec (`src/src/components/SequenceModal.jsx`) -/

/-- JS `\w`: ASCII letters, digits and underscore. -/
def isWordChar (c : Char) : Bool := c.isAlphanum || c = '_'

/-- The character class `[0-9.]` of the value group. -/
def isDigitDot (c : Char) : Bool := c.isDigit || c = '.'

/-- The keys of `PARAM_CONFIG`: the allow-list of recognized effects. -/
def paramNames : List String :=
  ["gain", "room", "delay", "cutoff", "resonance", "decay", "attack",
   "release", "pan", "speed", "fast", "slow"]

/-- JS `parseFloat` restricted to the strings the value group can
produce (`[0-9.]+`): leading digits, then optionally a dot and further
digits; anything after a second dot is ignored. `none` models `NaN`
(input with no leading digit and no `.d` start). -/
def jsParseFloat (s : String) : Option ℚ :=
  let intPart := s.data.takeWhile Char.isDigit
  let rest := s.data.dropWhile Char.isDigit
  let fracPart :=
    match rest with
    | '.' :: t => t.takeWhile Char.isDigit
    | _ => []
  if intPart.isEmpty ∧ fracPart.isEmpty then none
  else
    let ip : ℚ := intPart.foldl (fun a c => 10 * a + (c.toNat - '0'.toNat : ℕ)) 0
    let fp : ℚ := fracPart.foldl (fun a c => 10 * a + (c.toNat - '0'.toNat : ℕ)) 0
    some (ip + fp / (10 : ℚ) ^ fracPart.length)

/-- One match of the regex `\.(\w+)\(([0-9.]+)\)` as recorded by
`extractParameters`: the captured name and value text, `match.index`
and the full match length. -/
structure PMatch where
  name : String
  valueStr : String
  index : ℕ
  length : ℕ
deriving DecidableEq, Repr

/-- The numeric `value` field (`parseFloat(value)`). -/
def PMatch.value (m : PMatch) : Option ℚ := jsParseFloat m.valueStr

/-- The full text of a match: `.name(value)`. -/
def PMatch.text (m : PMatch) : String :=
  "." ++ m.name ++ "(" ++ m.valueStr ++ ")"

/-- Attempt the regex `\.(\w+)\(([0-9.]+)\)` at the head of `l`:
a dot, a maximal non-empty word run, `(`, a maximal non-empty
digit-or-dot run, `)`. (The regex engine's backtracking cannot produce
anything else: shortening either greedy run leaves the follow-up
character inside the same class, so the required `(` or `)` test still
fails.) Returns the captured name, value and total matched length. -/
def matchParamAt : List Char → Option (String × String × ℕ)
  | [] => none
  | c :: rest =>
    if c = '.' then
      let w := rest.takeWhile isWordChar
      match rest.dropWhile isWordChar with
      | [] => none
      | c1 :: rest2 =>
        if w = [] then none
        else if c1 = '(' then
          let v := rest2.takeWhile isDigitDot
          match rest2.dropWhile isDigitDot with
          | [] => none
          | c3 :: _ =>
            if v = [] then none
            else if c3 = ')' then
              some (String.mk w, String.mk v, w.length + v.length + 3)
            else none
        else none
    else none

/-- The left-to-right, non-overlapping scan of `regex.exec` in a
`while` loop: try a match at each position, jump past a match when one
is found. `fuel` bounds the recursion (always called with the length of
the remaining list, which never increases). Returns all raw matches,
before the `PARAM_CONFIG` filter. -/
def scanParams : ℕ → List Char → ℕ → List PMatch
  | 0, _, _ => []
  | _ + 1, [], _ => []
  | fuel + 1, c :: rest, pos =>
    match matchParamAt (c :: rest) with
    | some (n, v, len) =>
        { name := n, valueStr := v, index := pos, length := len } ::
          scanParams fuel ((c :: rest).drop len) (pos + len)
    | none => scanParams fuel rest (pos + 1)

/-- `extractParameters(code)`: all regex matches whose name is a
`PARAM_CONFIG` key, in text order. -/
def extractParameters (code : String) : List PMatch :=
  (scanParams code.data.length code.data 0).filter
    (fun m => m.name ∈ paramNames)

/-- `updateCodeParameter(code, paramIndex, newValue)`: re-extract,
locate match `paramIndex`, and splice `.name(newValue)` over its span.
`newValueStr` is the JS string interpolation `${newValue}` of the
number passed in. -/
def updateCodeParameter (code : String) (paramIndex : ℕ)
    (newValueStr : String) : String :=
  let params := extractParameters code
  match params[paramIndex]? with
  | none => code
  | some p =>
      let before := String.mk (code.data.take p.index)
      let after := String.mk (code.data.drop (p.index + p.length))
      before ++ "." ++ p.name ++ "(" ++ newValueStr ++ ")" ++ after

/-! ## Step-grid codec (`SequenceModal.jsx`) -/

/-- Attempt `s\("([^"]+)"\)` at the head of `l`: literal `s("`,
a maximal non-empty run of non-quote characters, then `")`.
Returns the captured pattern characters. -/
def matchSAt : List Char → Option (List Char)
  | 's' :: '(' :: '"' :: rest =>
    let p := rest.takeWhile (fun c => c ≠ '"')
    if p = [] then none
    else
      match rest.dropWhile (fun c => c ≠ '"') with
      | '"' :: ')' :: _ => some p
      | _ => none
  | _ => none

/-- `code.match(/s\("([^"]+)"\)/)`: the first position where the
pattern matches, returning capture group 1. -/
def findS : List Char → Option (List Char)
  | [] => none
  | c :: rest =>
    match matchSAt (c :: rest) with
    | some p => some p
    | none => findS rest

/-- Digits to the number `parseInt` returns. -/
def parseNatDigits (ds : List Char) : ℕ :=
  ds.foldl (fun a c => 10 * a + (c.toNat - '0'.toNat)) 0

/-- The anchored regex `^(\w+(?::\d+)?)\*(\d+)$` on the pattern string:
capture 1 is a word run optionally followed by `:` and digits, then a
literal `*`, then capture 2 (digits) ending the string. Returns
(capture 1, parsed repeat count). -/
def parseRepeat (p : List Char) : Option (String × ℕ) :=
  let w := p.takeWhile isWordChar
  let rest := p.dropWhile isWordChar
  if w.isEmpty then none
  else
    let g1rest : List Char × List Char :=
      match rest with
      | ':' :: t =>
        let ds := t.takeWhile Char.isDigit
        if ds.isEmpty then (w, rest)
        else (w ++ ':' :: ds, t.dropWhile Char.isDigit)
      | _ => (w, rest)
    match g1rest.2 with
    | '*' :: t2 =>
      let ds2 := t2.takeWhile Char.isDigit
      let r2 := t2.dropWhile Char.isDigit
      if ds2.isEmpty then none
      else if r2.isEmpty then some (String.mk g1rest.1, parseNatDigits ds2)
      else none
    | _ => none

/-- The uniform-repetition decode loop:
```
const steps = new Array(numSteps).fill(false);
const spacing = numSteps / repeatCount;
for (let i = 0; i < repeatCount; i++) {
  const stepIndex = Math.floor(i * spacing);
  if (stepIndex < numSteps) steps[stepIndex] = true;
}
```
-/
def decodeRepeat (repeatCount numSteps : ℕ) : List Bool :=
  (List.range repeatCount).foldl
    (fun steps (i : ℕ) =>
      if (⌊(i : ℚ) * ((numSteps : ℚ) / (repeatCount : ℚ))⌋).toNat < numSteps then
        steps.set ((⌊(i : ℚ) * ((numSteps : ℚ) / (repeatCount : ℚ))⌋).toNat) true
      else steps)
    (List.replicate numSteps false)

/-- Auxiliary bound for the `splitWSAux` termination argument. -/
theorem length_dropWhile_le (p : Char → Bool) (l : List Char) :
    (l.dropWhile p).length ≤ l.length := by
  induction l with
  | nil => simp
  | cons c t ih =>
    by_cases h : p c
    · simpa [List.dropWhile, h] using Nat.le_succ_of_le ih
    · simp [List.dropWhile, h]

/-- `patternStr.split(/\s+/)`: pieces between maximal whitespace runs,
with an empty leading piece when the string starts with whitespace and
an empty trailing piece when it ends with one. -/
def splitWSAux : List Char → List Char → List String
  | [], acc => [String.mk acc.reverse]
  | c :: rest, acc =>
    if isWS c then
      String.mk acc.reverse :: splitWSAux (rest.dropWhile isWS) []
    else splitWSAux rest (c :: acc)
  termination_by l _ => l.length
  decreasing_by
    · have := length_dropWhile_le isWS rest
      simp only [List.length_cons]
      omega
    · simp only [List.length_cons]
      omega

/-- `split(/\s+/)` over a string. -/
def splitWS (s : String) : List String := splitWSAux s.data []

/-- `parsePatternFromCode(code, numSteps)`: find the `s("...")`
invocation, then either decode the uniform-repetition shorthand over
`numSteps` steps, or map each space-separated token to a grid cell
(`~` and the empty token are rests) with the first non-rest token as
the sound name (defaulting to `"bd"`). -/
def parsePatternFromCode (code : String) (numSteps : ℕ) :
    Option (List Bool × String) :=
  match findS code.data with
  | none => none
  | some patChars =>
    match parseRepeat patChars with
    | some (sound, count) => some (decodeRepeat count numSteps, sound)
    | none =>
      let tokens := splitWS (String.mk patChars)
      let steps := tokens.map (fun s => s != "~" && s != "")
      some (steps, (tokens.find? (fun s => s != "~" && s != "")).getD "bd")

/-- `generatePatternCode(steps, sampleName)`:
`s("tok₀ tok₁ …")` with `sampleName` at hits and `~` at rests. -/
def generatePatternCode (steps : List Bool) (sampleName : String) : String :=
  "s(\"" ++
    joinSep " " (steps.map (fun hit => if hit then sampleName else "~"))
    ++ "\")"

/-! ## Helper lemmas about the session engine -/

/-- Lookup in the ordered store (`trackPatternsRef.current[id]`). -/
def storeLookup (l : List (String × String)) (id : String) : Option String :=
  (l.find? (fun p => p.1 = id)).map Prod.snd

theorem storeLookup_insertOrReplace (l : List (String × String))
    (id v : String) : storeLookup (insertOrReplace l id v) id = some v := by
  induction l with
  | nil => simp [insertOrReplace, storeLookup]
  | cons p t ih =>
    obtain ⟨k, w⟩ := p
    by_cases h : k = id
    · subst h
      simp [insertOrReplace, storeLookup]
    · simpa [insertOrReplace, h, storeLookup] using ih

/-- `play` without a sample url always issues exactly one evaluation,
of the combined program built from this call's directive and the
updated store; the updated store is the insert-or-replace of the
(possibly cleared) previous store. -/
theorem play_events_structure (σ : SessionState) (code trackId : String)
    (exclusive evalOk : Bool) :
    (play σ code trackId exclusive none true evalOk).events =
      [REvent.evalEv
        (buildCombined (splitSetCps code).1
          ((play σ code trackId exclusive none true evalOk).state.store.map
            Prod.snd)) true true] ∧
    (play σ code trackId exclusive none true evalOk).state.store =
      insertOrReplace (if exclusive then [] else σ.store) trackId
        (splitSetCps code).2 := by
  cases evalOk <;> cases exclusive <;> simp [play]

theorem stopTrack_ok_of_evalOk (σ : SessionState) (tid : Option String) :
    (stopTrack σ tid true).ok = true := by
  cases tid with
  | none => simp [stopTrack]
  | some id =>
    by_cases h : (eraseActive σ.active id).isEmpty <;> simp [stopTrack, h]

/-! ## C3: preload gates evaluation -/

/-- **C3.** When `play` is given a sample url, the preload request is the
first runtime call, strictly before any evaluation; if the preload
fails, the call returns `false` with a reported error, the trace is the
lone preload request (so no evaluation was issued) and the Pattern
Store, active set and playing flag are exactly as before. -/
theorem play_preload_gates_evaluation (σ : SessionState)
    (code trackId url : String) (exclusive evalOk : Bool) :
    ((play σ code trackId exclusive (some url) false evalOk).ok = false ∧
     (play σ code trackId exclusive (some url) false evalOk).state.store = σ.store ∧
     (play σ code trackId exclusive (some url) false evalOk).state.active = σ.active ∧
     (play σ code trackId exclusive (some url) false evalOk).state.isPlaying
        = σ.isPlaying ∧
     (play σ code trackId exclusive (some url) false evalOk).state.error.isSome
        = true ∧
     (play σ code trackId exclusive (some url) false evalOk).events
        = [REvent.preload url]) ∧
    ∃ c, (play σ code trackId exclusive (some url) true evalOk).events =
      [REvent.preload url, REvent.evalEv c true true] := by
  refine ⟨by simp [play], ?_⟩
  cases evalOk <;> cases exclusive <;> simp [play]

/-! ## C4: evaluation failure does not roll back the store -/

/-- **C4.** When the runtime evaluation of the combined program fails,
`play` reports an error and returns `false`, yet the fragment stored
for the track stays in the Pattern Store and the id stays active, and
the engine accepts subsequent operations (a retry succeeds and a
`stopTrack` still works). -/
theorem play_eval_failure_keeps_fragment (σ : SessionState)
    (code trackId : String) (exclusive : Bool) :
    (play σ code trackId exclusive none true false).ok = false ∧
    (play σ code trackId exclusive none true false).state.error.isSome = true ∧
    storeLookup (play σ code trackId exclusive none true false).state.store
        trackId = some (splitSetCps code).2 ∧
    trackId ∈ (play σ code trackId exclusive none true false).state.active ∧
    (play (play σ code trackId exclusive none true false).state
        code trackId exclusive none true true).ok = true ∧
    (stopTrack (play σ code trackId exclusive none true false).state
        (some trackId) true).ok = true := by
  refine ⟨by simp [play], by simp [play], ?_, ?_,
    by cases exclusive; all_goals simp [play],
    stopTrack_ok_of_evalOk _ _⟩
  · have h := (play_events_structure σ code trackId exclusive false).2
    rw [h]
    exact storeLookup_insertOrReplace _ _ _
  · cases exclusive
    · by_cases h : trackId ∈ σ.active
      all_goals simp [play, addActive, h]
    · simp [play, addActive]

/-! ## C5: stopping the last track hushes, otherwise rebuild -/

/-- **C5.** If exactly one track is active and `stopTrack` is called on
its id, the only runtime call is the silence command `hush()` (never a
one-track combined program), and on success the session is marked
not-playing. If another track is also active, `stopTrack` removes the
id from store and active set and issues exactly one evaluation of the
combined program rebuilt from the remaining fragments. -/
theorem stopTrack_last_hushes_else_rebuilds (σ : SessionState)
    (id other : String) (evalOk : Bool) :
    (σ.active = [id] →
      (stopTrack σ (some id) evalOk).events =
        [REvent.evalEv "hush()" false false] ∧
      (evalOk = true → (stopTrack σ (some id) evalOk).state.isPlaying = false)) ∧
    (other ∈ σ.active → other ≠ id →
      (stopTrack σ (some id) evalOk).events =
        [REvent.evalEv
          (buildCombined "" ((eraseKey σ.store id).map Prod.snd)) true true] ∧
      (stopTrack σ (some id) evalOk).state.store = eraseKey σ.store id ∧
      (stopTrack σ (some id) evalOk).state.active = eraseActive σ.active id) := by
  constructor
  · intro h
    have hempty : (eraseActive σ.active id).isEmpty = true := by
      simp [eraseActive, h]
    cases evalOk <;> simp [stopTrack, hempty]
  · intro hmem hne
    have hne' : (eraseActive σ.active id).isEmpty = false := by
      have : other ∈ eraseActive σ.active id := by
        simp [eraseActive, List.mem_filter, hmem, hne]
      cases he : (eraseActive σ.active id) with
      | nil => rw [he] at this; cases this
      | cons a l => simp [he]
    cases evalOk <;> simp [stopTrack, hne']

/-! ## C9: tempo change pushes only a cps value -/

/-- **C9.** While playing with a non-empty active set,
`handleTempoChange` recomputes the absolute cycles-per-second value as
`(bpm / 240) * (newTempo / 100)` from the reference (first active)
track's declared base tempo and pushes exactly that value to the
runtime; the session state — stored fragments included — is unchanged,
as is the state under the underlying `setCps`. -/
theorem tempo_change_pushes_cps_only (seqs : List (String × ℚ))
    (σ : SessionState) (newTempo bpm : ℚ) (id : String)
    (hp : σ.isPlaying = true) (hne : σ.active ≠ [])
    (hfind : seqs.find? (fun s => s.1 = σ.active.headD "") = some (id, bpm)) :
    (handleTempoChange seqs σ newTempo).state = σ ∧
    (handleTempoChange seqs σ newTempo).events =
      [REvent.setCpsEv (bpm / 240 * (newTempo / 100))] ∧
    ∀ v : ℚ, (setCpsOp σ v).state = σ := by
  have hmt : σ.active.isEmpty = false := by
    cases h : σ.active with
    | nil => exact absurd h hne
    | cons a l => simp
  rw [List.headD_eq_head?] at hfind
  refine ⟨?_, ?_, fun v => rfl⟩ <;> simp [handleTempoChange, hp, hmt, hfind, setCpsOp]

/-- Witness for C9 at a concrete playing session. -/
theorem tempo_change_pushes_cps_only_witness :
    (handleTempoChange [("a", (120 : ℚ))]
        ⟨[("a", "x")], ["a"], true, none⟩ 50).state =
      ⟨[("a", "x")], ["a"], true, none⟩ ∧
    (handleTempoChange [("a", (120 : ℚ))]
        ⟨[("a", "x")], ["a"], true, none⟩ 50).events =
      [REvent.setCpsEv ((120 : ℚ) / 240 * (50 / 100))] ∧
    ∀ v : ℚ, (setCpsOp ⟨[("a", "x")], ["a"], true, none⟩ v).state =
      ⟨[("a", "x")], ["a"], true, none⟩ :=
  tempo_change_pushes_cps_only [("a", (120 : ℚ))]
    ⟨[("a", "x")], ["a"], true, none⟩ 50 120 "a" rfl (by simp) (by simp)

/-- Witness for C5: a session with the single active track `"a"`
stopped (hush, not-playing), and a session with active `"a", "b"`
stopping `"a"` (rebuild from the remaining fragments). -/
theorem stopTrack_last_hushes_else_rebuilds_witness :
    ((stopTrack ⟨[("a", "x")], ["a"], true, none⟩ (some "a") true).events =
        [REvent.evalEv "hush()" false false] ∧
      (stopTrack ⟨[("a", "x")], ["a"], true, none⟩ (some "a") true).state.isPlaying
        = false) ∧
    ((stopTrack ⟨[("a", "x"), ("b", "y")], ["a", "b"], true, none⟩
        (some "a") true).events =
      [REvent.evalEv
        (buildCombined ""
          ((eraseKey [("a", "x"), ("b", "y")] "a").map Prod.snd)) true true] ∧
     (stopTrack ⟨[("a", "x"), ("b", "y")], ["a", "b"], true, none⟩
        (some "a") true).state.store = eraseKey [("a", "x"), ("b", "y")] "a" ∧
     (stopTrack ⟨[("a", "x"), ("b", "y")], ["a", "b"], true, none⟩
        (some "a") true).state.active = eraseActive ["a", "b"] "a") :=
  ⟨⟨((stopTrack_last_hushes_else_rebuilds
        ⟨[("a", "x")], ["a"], true, none⟩ "a" "b" true).1 rfl).1,
    ((stopTrack_last_hushes_else_rebuilds
        ⟨[("a", "x")], ["a"], true, none⟩ "a" "b" true).1 rfl).2 rfl⟩,
   (stopTrack_last_hushes_else_rebuilds
      ⟨[("a", "x"), ("b", "y")], ["a", "b"], true, none⟩ "a" "b" true).2
     (by decide) (by decide)⟩

/-! ## C2: tempo directive extraction and hoisting -/

theorem buildCombined_prefix (scl : String) (hscl : ¬ scl = "")
    (ps : List String) :
    buildCombined scl ps = scl ++ ";\n" ++ buildCombined "" ps := by
  by_cases h : ps.length == 1 <;> simp [buildCombined, h, hscl]

/-- **C2.** When the fragment handed to `play` starts with a `setcps(`
line, the stored fragment is the remainder with the directive stripped,
and the single evaluated combined program is that directive, `";\n"`,
then the directive-free combination of all stored fragments — the
directive prefixes the program exactly once. Because the directive used
is always the current call's own first line, the prefix after a call
that supplies a directive is that latest directive regardless of
directives supplied by earlier calls (last-write-wins). -/
theorem play_hoists_tempo_directive (σ : SessionState)
    (code trackId : String) (exclusive evalOk : Bool)
    (h : startsWithSetcps (jsTrim ((splitNl (jsTrim code)).headD "")) = true) :
    storeLookup (play σ code trackId exclusive none true evalOk).state.store
        trackId =
      some (jsTrim (joinSep "\n" (splitNl (jsTrim code)).tail)) ∧
    (play σ code trackId exclusive none true evalOk).events =
      [REvent.evalEv
        ((splitNl (jsTrim code)).headD "" ++ ";\n" ++
          buildCombined ""
            ((play σ code trackId exclusive none true evalOk).state.store.map
              Prod.snd)) true true] := by
  have h' := h
  rw [List.headD_eq_head?] at h'
  have hsplit : splitSetCps code =
      ((splitNl (jsTrim code)).headD "",
       jsTrim (joinSep "\n" (splitNl (jsTrim code)).tail)) := by
    simp [splitSetCps, h']
  have hne : ¬ (splitNl (jsTrim code)).headD "" = "" := by
    intro he
    rw [he] at h
    exact absurd h (by decide)
  obtain ⟨hev, hst⟩ := play_events_structure σ code trackId exclusive evalOk
  refine ⟨?_, ?_⟩
  · rw [hst, hsplit]
    exact storeLookup_insertOrReplace _ _ _
  · rw [hev, hsplit, buildCombined_prefix _ hne]

/-- Witness for C2: a concrete fragment carrying a `setcps(0.5)`
directive, played into the empty session. -/
theorem play_hoists_tempo_directive_witness :
    storeLookup (play initState "setcps(0.5)\ns(\"bd\")" "a" false none
        true true).state.store "a" =
      some (jsTrim (joinSep "\n"
        (splitNl (jsTrim "setcps(0.5)\ns(\"bd\")")).tail)) ∧
    (play initState "setcps(0.5)\ns(\"bd\")" "a" false none true true).events =
      [REvent.evalEv
        ((splitNl (jsTrim "setcps(0.5)\ns(\"bd\")")).headD "" ++ ";\n" ++
          buildCombined ""
            ((play initState "setcps(0.5)\ns(\"bd\")" "a" false none
                true true).state.store.map Prod.snd)) true true] :=
  play_hoists_tempo_directive initState "setcps(0.5)\ns(\"bd\")" "a"
    false true (by decide)

/-! ## C1: determinism of the combined program -/

/-- **C1** (counterexample): two call sequences reaching the same final
active-id set with the same fragment stored per id — the two stores are
permutations of each other and the active sets are equal as sets — whose
final rebuilds nevertheless produce different combined program texts:
the store is insertion-ordered and the `stack(...)` argument order
follows it, so the combined program is not a function of the set alone. -/
theorem combined_text_depends_on_call_order :
    (play (play initState "s(\"A\")" "a" false none true true).state
        "s(\"B\")" "b" false none true true).state.store.Perm
      (play (play initState "s(\"B\")" "b" false none true true).state
        "s(\"A\")" "a" false none true true).state.store ∧
    (play (play initState "s(\"A\")" "a" false none true true).state
        "s(\"B\")" "b" false none true true).state.active.toFinset =
      (play (play initState "s(\"B\")" "b" false none true true).state
        "s(\"A\")" "a" false none true true).state.active.toFinset ∧
    (play (play initState "s(\"A\")" "a" false none true true).state
        "s(\"B\")" "b" false none true true).events =
      [REvent.evalEv "stack(\n  (s(\"A\")),\n  (s(\"B\"))\n)" true true] ∧
    (play (play initState "s(\"B\")" "b" false none true true).state
        "s(\"A\")" "a" false none true true).events =
      [REvent.evalEv "stack(\n  (s(\"B\")),\n  (s(\"A\"))\n)" true true] ∧
    ("stack(\n  (s(\"A\")),\n  (s(\"B\"))\n)" : String) ≠
      "stack(\n  (s(\"B\")),\n  (s(\"A\"))\n)" := by
  decide

/-- **C1** (amended): the combined program text issued by a `play`
rebuild is a function of the insertion-ordered store reached by the
call together with the call's own tempo directive: two calls whose
directives agree and whose resulting ordered stores agree issue
identical evaluations, whatever call histories led there. -/
theorem combined_function_of_ordered_store (σ₁ σ₂ : SessionState)
    (c₁ c₂ id₁ id₂ : String) (e₁ e₂ ev₁ ev₂ : Bool)
    (hscl : (splitSetCps c₁).1 = (splitSetCps c₂).1)
    (hstore : (play σ₁ c₁ id₁ e₁ none true ev₁).state.store =
              (play σ₂ c₂ id₂ e₂ none true ev₂).state.store) :
    (play σ₁ c₁ id₁ e₁ none true ev₁).events =
      (play σ₂ c₂ id₂ e₂ none true ev₂).events := by
  rw [(play_events_structure σ₁ c₁ id₁ e₁ ev₁).1,
    (play_events_structure σ₂ c₂ id₂ e₂ ev₂).1, hscl, hstore]

/-- Witness for the amended C1: the run `play a A; play b B` and the run
`play a X; play a A; play b B` reach the same ordered store, and their
final rebuilds evaluate the same combined program. -/
theorem combined_function_of_ordered_store_witness :
    (play (play initState "s(\"A\")" "a" false none true true).state
        "s(\"B\")" "b" false none true true).events =
      (play (play (play initState "s(\"X\")" "a" false none true true).state
          "s(\"A\")" "a" false none true true).state
        "s(\"B\")" "b" false none true true).events :=
  combined_function_of_ordered_store
    (play initState "s(\"A\")" "a" false none true true).state
    (play (play initState "s(\"X\")" "a" false none true true).state
      "s(\"A\")" "a" false none true true).state
    "s(\"B\")" "s(\"B\")" "b" "b" false false true true rfl (by decide)

/-! ## C6: the session-state invariant -/

/-- The spec's session invariant: the active-id set is exactly the key
set of the Pattern Store, and `isPlaying` holds iff a track is active. -/
def SessionInv (σ : SessionState) : Prop :=
  (∀ x, x ∈ σ.store.map Prod.fst ↔ x ∈ σ.active) ∧
  (σ.isPlaying = true ↔ σ.active ≠ [])

theorem mem_keys_insertOrReplace (l : List (String × String))
    (id v x : String) :
    x ∈ (insertOrReplace l id v).map Prod.fst ↔
      x ∈ l.map Prod.fst ∨ x = id := by
  induction l with
  | nil => simp [insertOrReplace]
  | cons p t ih =>
    obtain ⟨k, w⟩ := p
    by_cases h : k = id
    · subst h
      simp [insertOrReplace]
      tauto
    · simp [insertOrReplace, h] at ih ⊢
      tauto

theorem mem_addActive (l : List String) (id x : String) :
    x ∈ addActive l id ↔ x ∈ l ∨ x = id := by
  unfold addActive
  by_cases h : id ∈ l
  · simp only [h, if_pos]
    constructor
    · exact Or.inl
    · rintro (hx | rfl)
      · exact hx
      · exact h
  · simp [h]

theorem mem_eraseActive (l : List String) (id x : String) :
    x ∈ eraseActive l id ↔ x ∈ l ∧ x ≠ id := by
  simp [eraseActive]

theorem mem_keys_eraseKey (l : List (String × String)) (id x : String) :
    x ∈ (eraseKey l id).map Prod.fst ↔ x ∈ l.map Prod.fst ∧ x ≠ id := by
  simp only [eraseKey, List.mem_map, List.mem_filter]
  constructor
  · rintro ⟨p, ⟨hp, hne⟩, rfl⟩
    refine ⟨⟨p, hp, rfl⟩, ?_⟩
    simpa using hne
  · rintro ⟨⟨p, hp, rfl⟩, hne⟩
    exact ⟨p, ⟨hp, by simpa using hne⟩, rfl⟩

/-- **C6** (amended): provided the invariant `activeIds =
keys(PatternStore)` and `isPlaying ↔ activeIds ≠ ∅` held before the
operation, it holds in full after every `play`, `stopTrack` or `hush`
operation that completes successfully; after an operation returning a
failure signal the key-set half `activeIds = keys(PatternStore)` still
holds (every path mutates the store and the active set together, or not
at all), though `isPlaying` may then disagree with non-emptiness
(`invariant_fails_after_failed_play`). The invariant holds of the
initial state, hence of every state reachable through successful
operations. -/
theorem session_invariant_preserved (σ : SessionState) (hσ : SessionInv σ)
    (code id : String) (exclusive : Bool) (url : Option String)
    (pOk : Bool) (tid : Option String) :
    (∀ evB : Bool,
      ((play σ code id exclusive url pOk evB).ok = true →
        SessionInv (play σ code id exclusive url pOk evB).state) ∧
      (∀ x, x ∈ (play σ code id exclusive url pOk evB).state.store.map
          Prod.fst ↔
        x ∈ (play σ code id exclusive url pOk evB).state.active)) ∧
    (∀ evB : Bool,
      ((stopTrack σ tid evB).ok = true →
        SessionInv (stopTrack σ tid evB).state) ∧
      (∀ x, x ∈ (stopTrack σ tid evB).state.store.map Prod.fst ↔
        x ∈ (stopTrack σ tid evB).state.active)) ∧
    (∀ evB : Bool,
      ((hushOp σ evB).ok = true → SessionInv (hushOp σ evB).state) ∧
      (∀ x, x ∈ (hushOp σ evB).state.store.map Prod.fst ↔
        x ∈ (hushOp σ evB).state.active)) ∧
    SessionInv initState := by
  obtain ⟨hkeys, hplay⟩ := hσ
  have hcore : ∀ σ1 : SessionState,
      (∀ x, x ∈ σ1.store.map Prod.fst ↔ x ∈ σ1.active) →
      SessionInv
        ⟨insertOrReplace σ1.store id (splitSetCps code).2,
         addActive σ1.active id, true, none⟩ := by
    intro σ1 h1
    constructor
    · intro x
      rw [mem_keys_insertOrReplace, mem_addActive, h1 x]
    · simp only [ne_eq, true_iff]
      intro hnil
      have : id ∈ addActive σ1.active id := by
        rw [mem_addActive]; exact Or.inr rfl
      rw [hnil] at this
      cases this
  have hkcore : ∀ σ1 : SessionState,
      (∀ x, x ∈ σ1.store.map Prod.fst ↔ x ∈ σ1.active) →
      ∀ x, x ∈ (insertOrReplace σ1.store id (splitSetCps code).2).map
          Prod.fst ↔ x ∈ addActive σ1.active id := by
    intro σ1 h1 x
    rw [mem_keys_insertOrReplace, mem_addActive, h1 x]
  refine ⟨?_, ?_, ?_, ?_⟩
  · -- play: full invariant on success, key-set half always
    intro evB
    constructor
    · intro hok
      cases url with
      | none =>
        cases evB with
        | false => simp [play] at hok
        | true =>
          cases exclusive with
          | false => simpa [play] using hcore σ (by exact hkeys)
          | true =>
            simpa [play] using hcore ⟨[], [], σ.isPlaying, σ.error⟩ (by simp)
      | some u =>
        cases pOk with
        | false => simp [play] at hok
        | true =>
          cases evB with
          | false => simp [play] at hok
          | true =>
            cases exclusive with
            | false => simpa [play] using hcore σ (by exact hkeys)
            | true =>
              simpa [play] using hcore ⟨[], [], σ.isPlaying, σ.error⟩ (by simp)
    · intro x
      cases url with
      | none =>
        cases exclusive with
        | false =>
          cases evB <;> simpa [play] using hkcore σ (by exact hkeys) x
        | true =>
          cases evB <;>
            simpa [play] using
              hkcore ⟨[], [], σ.isPlaying, σ.error⟩ (by simp) x
      | some u =>
        cases pOk with
        | false => cases evB <;> simpa [play] using hkeys x
        | true =>
          cases exclusive with
          | false =>
            cases evB <;> simpa [play] using hkcore σ (by exact hkeys) x
          | true =>
            cases evB <;>
              simpa [play] using
                hkcore ⟨[], [], σ.isPlaying, σ.error⟩ (by simp) x
  · -- stopTrack: full invariant on success, key-set half always
    intro evB
    have hst : (stopTrack σ tid evB).state.store =
          (match tid with
           | some i => eraseKey σ.store i
           | none => if evB then [] else σ.store) ∧
        (stopTrack σ tid evB).state.active =
          (match tid with
           | some i => eraseActive σ.active i
           | none => if evB then [] else σ.active) := by
      cases tid with
      | none => cases evB <;> simp [stopTrack]
      | some i =>
        by_cases hemp : (eraseActive σ.active i).isEmpty
        · cases evB <;> simp [stopTrack, hemp]
        · simp [stopTrack, hemp]
    constructor
    · intro hok
      cases tid with
      | none =>
        cases evB with
        | false => simp [stopTrack] at hok
        | true => constructor <;> simp [stopTrack]
      | some i =>
        cases evB with
        | false =>
          by_cases hemp : (eraseActive σ.active i).isEmpty <;>
            simp [stopTrack, hemp] at hok
        | true =>
          have hsts : (stopTrack σ (some i) true).state.store =
              eraseKey σ.store i := hst.1
          have hsta : (stopTrack σ (some i) true).state.active =
              eraseActive σ.active i := hst.2
          refine ⟨?_, ?_⟩
          · intro x
            rw [hsts, hsta, mem_keys_eraseKey, hkeys x]
            exact (mem_eraseActive _ _ _).symm
          · rw [hsta]
            by_cases hemp : (eraseActive σ.active i).isEmpty
            · have hnil : eraseActive σ.active i = [] := by
                simpa [List.isEmpty_iff] using hemp
              have hip :
                  (stopTrack σ (some i) true).state.isPlaying = false := by
                simp [stopTrack, hemp]
              rw [hip, hnil]
              simp
            · have hne2 : eraseActive σ.active i ≠ [] := by
                simpa [List.isEmpty_iff] using hemp
              have hact : σ.active ≠ [] := by
                intro h0
                exact hne2 (by simp [eraseActive, h0])
              have hip : (stopTrack σ (some i) true).state.isPlaying =
                  σ.isPlaying := by
                simp [stopTrack, hemp]
              rw [hip]
              exact ⟨fun _ => hne2, fun _ => hplay.mpr hact⟩
    · intro x
      cases tid with
      | none =>
        cases evB with
        | true =>
          have hsts : (stopTrack σ none true).state.store = [] := hst.1
          have hsta : (stopTrack σ none true).state.active = [] := hst.2
          rw [hsts, hsta]
          simp
        | false =>
          have hsts : (stopTrack σ none false).state.store = σ.store := hst.1
          have hsta : (stopTrack σ none false).state.active = σ.active :=
            hst.2
          rw [hsts, hsta]
          exact hkeys x
      | some i =>
        have hsts : (stopTrack σ (some i) evB).state.store =
            eraseKey σ.store i := hst.1
        have hsta : (stopTrack σ (some i) evB).state.active =
            eraseActive σ.active i := hst.2
        rw [hsts, hsta, mem_keys_eraseKey, hkeys x]
        exact (mem_eraseActive _ _ _).symm
  · -- hush: full invariant on success, key-set half always
    intro evB
    constructor
    · intro hok
      cases evB with
      | false => simp [hushOp] at hok
      | true => constructor <;> simp [hushOp]
    · intro x
      cases evB with
      | true => simp [hushOp]
      | false => simpa [hushOp] using hkeys x
  · constructor <;> simp [initState]

/-- **C6** (counterexample): a completed `playTrack` whose evaluation
failed returns the failure signal with the track stored and active, yet
`isPlaying` is still `false`: after an operation that returns a failure
signal, `isPlaying` does not match the non-emptiness of the active set,
refuting the claim for failure-signalled operations. -/
theorem invariant_fails_after_failed_play :
    (play initState "s(\"A\")" "t1" false none true false).ok = false ∧
    (play initState "s(\"A\")" "t1" false none true false).state.active ≠ [] ∧
    (play initState "s(\"A\")" "t1" false none true false).state.isPlaying
      = false := by
  decide

/-- Witness for the amended C6, at the empty initial session. -/
theorem session_invariant_preserved_witness :
    SessionInv initState ∧
    ((∀ evB : Bool,
      ((play initState "s(\"A\")" "a" false none true evB).ok = true →
        SessionInv (play initState "s(\"A\")" "a" false none true evB).state) ∧
      (∀ x, x ∈ (play initState "s(\"A\")" "a" false none true
          evB).state.store.map Prod.fst ↔
        x ∈ (play initState "s(\"A\")" "a" false none true
          evB).state.active)) ∧
    (∀ evB : Bool,
      ((stopTrack initState (some "a") evB).ok = true →
        SessionInv (stopTrack initState (some "a") evB).state) ∧
      (∀ x, x ∈ (stopTrack initState (some "a") evB).state.store.map
          Prod.fst ↔
        x ∈ (stopTrack initState (some "a") evB).state.active)) ∧
    (∀ evB : Bool,
      ((hushOp initState evB).ok = true →
        SessionInv (hushOp initState evB).state) ∧
      (∀ x, x ∈ (hushOp initState evB).state.store.map Prod.fst ↔
        x ∈ (hushOp initState evB).state.active)) ∧
    SessionInv initState) := by
  have h0 : SessionInv initState := by
    constructor <;> simp [initState]
  exact ⟨h0, session_invariant_preserved initState h0 "s(\"A\")" "a" false
    none true (some "a")⟩

/-! ## C8: uniform-repetition decoding -/

/-- `Math.floor(i * (S / N))` over the rationals agrees with natural
division `i * S / N`. -/
theorem floor_mul_div (i S N : ℕ) :
    (⌊(i : ℚ) * ((S : ℚ) / (N : ℚ))⌋).toNat = i * S / N := by
  have h1 : (i : ℚ) * ((S : ℚ) / (N : ℚ)) = ((i * S : ℕ) : ℚ) / ((N : ℕ) : ℚ) := by
    push_cast
    ring
  rw [h1, Rat.floor_natCast_div_natCast, ← Int.natCast_div, Int.toNat_natCast]

/-- Cells hit by the decode loop: a cell is `true` after the fold iff
it was `true` before or some loop index writes it (within bounds). -/
theorem foldl_set_getElem (f : ℕ → ℕ) (S : ℕ) (l : List ℕ) :
    ∀ (base : List Bool), base.length = S → ∀ j : ℕ,
      ((l.foldl (fun steps i =>
          if f i < S then steps.set (f i) true else steps) base)[j]? =
            some true ↔
        (base[j]? = some true ∨ ∃ i ∈ l, f i = j ∧ f i < S)) := by
  induction l with
  | nil =>
    intro base _ j
    simp
  | cons a t ih =>
    intro base hb j
    rw [List.foldl_cons]
    have hstep : (if f a < S then base.set (f a) true else base).length = S := by
      by_cases ha : f a < S <;> simp [ha, hb]
    rw [ih _ hstep j]
    have hbase : (if f a < S then base.set (f a) true else base)[j]? = some true ↔
        (base[j]? = some true ∨ (f a = j ∧ f a < S)) := by
      by_cases ha : f a < S
      · rw [if_pos ha, List.getElem?_set]
        by_cases hj : f a = j
        · subst hj
          simp [ha, hb]
        · simp [hj]
      · simp [ha]
    rw [hbase]
    constructor
    · rintro ((hb0 | hfa) | ⟨i, hi, hij⟩)
      · exact Or.inl hb0
      · exact Or.inr ⟨a, List.mem_cons_self a t, hfa⟩
      · exact Or.inr ⟨i, List.mem_cons_of_mem a hi, hij⟩
    · rintro (hb0 | ⟨i, hi, hij⟩)
      · exact Or.inl (Or.inl hb0)
      · rcases List.mem_cons.mp hi with rfl | hi'
        · exact Or.inl (Or.inr hij)
        · exact Or.inr ⟨i, hi', hij⟩

/-- The decoded grid, written with the ℚ arithmetic eliminated: cell
`j` is hit iff `j = ⌊i * S / N⌋` for some `i < N`. -/
theorem decodeRepeat_eq_map (N S : ℕ) (hN : 0 < N) (hNS : N ≤ S) :
    decodeRepeat N S =
      (List.range S).map (fun j => decide (∃ i, i < N ∧ i * S / N = j)) := by
  have hlen : (decodeRepeat N S).length = S := by
    have hl : ∀ (l : List ℕ) (base : List Bool),
        (l.foldl (fun steps (i : ℕ) =>
          if (⌊(i : ℚ) * ((S : ℚ) / (N : ℚ))⌋).toNat < S then
            steps.set ((⌊(i : ℚ) * ((S : ℚ) / (N : ℚ))⌋).toNat) true
          else steps) base).length = base.length := by
      intro l
      induction l with
      | nil => intro base; rfl
      | cons a t ih =>
        intro base
        rw [List.foldl_cons, ih]
        by_cases ha : (⌊(a : ℚ) * ((S : ℚ) / (N : ℚ))⌋).toNat < S <;> simp [ha]
    rw [decodeRepeat, hl (List.range N) (List.replicate S false)]
    simp
  have hchar : ∀ j : ℕ, ((decodeRepeat N S)[j]? = some true ↔
      ∃ i : ℕ, i < N ∧ i * S / N = j) := by
    intro j
    have hmain := foldl_set_getElem
      (fun i : ℕ => (⌊(i : ℚ) * ((S : ℚ) / (N : ℚ))⌋).toNat) S
      (List.range N) (List.replicate S false) (by simp) j
    rw [decodeRepeat, hmain]
    have hS : 0 < S := lt_of_lt_of_le hN hNS
    have hlt : ∀ i : ℕ, i < N → i * S / N < S := by
      intro i hi
      rw [Nat.div_lt_iff_lt_mul hN, mul_comm S N]
      exact (Nat.mul_lt_mul_right hS).mpr hi
    simp only [List.getElem?_replicate, List.mem_range, floor_mul_div]
    constructor
    · rintro (hfalse | ⟨i, hi, hij, _⟩)
      · by_cases hjS : j < S <;> simp [hjS] at hfalse
      · exact ⟨i, hi, hij⟩
    · rintro ⟨i, hi, hij⟩
      exact Or.inr ⟨i, hi, hij, hij ▸ hlt i hi⟩
  apply List.ext_getElem?
  intro n
  by_cases hn : n < S
  · rw [List.getElem?_map, List.getElem?_range hn]
    obtain ⟨b, hb⟩ : ∃ b, (decodeRepeat N S)[n]? = some b := by
      have : n < (decodeRepeat N S).length := by rw [hlen]; exact hn
      exact ⟨(decodeRepeat N S)[n], List.getElem?_eq_getElem this⟩
    rw [hb]
    by_cases hp : ∃ i, i < N ∧ i * S / N = n
    · have := (hchar n).mpr hp
      rw [hb] at this
      simp only [Option.some_inj] at this
      simp [this, hp]
    · have : ¬ (decodeRepeat N S)[n]? = some true := fun hc => hp ((hchar n).mp hc)
      rw [hb] at this
      cases b with
      | true => exact absurd rfl this
      | false => simp [hp]
  · have h1 : (decodeRepeat N S)[n]? = none := by
      rw [List.getElem?_eq_none_iff, hlen]
      omega
    have h2 : ((List.range S).map
        (fun j => decide (∃ i, i < N ∧ i * S / N = j)))[n]? = none := by
      rw [List.getElem?_eq_none_iff]
      simp only [List.length_map, List.length_range]
      omega
    rw [h1, h2]

/-- **C8.** Decoding a uniform-repetition shorthand with `N` hits over a
grid of `S` steps (`0 < N ≤ S`) yields a grid of length `S` whose hits
are exactly the indices `⌊i * S / N⌋` for `i < N`, with the first hit at
index `0`; in particular `"bd*4"` over a 16-step grid decodes to hits at
exactly `{0, 4, 8, 12}` with sound `"bd"`. -/
theorem decodeRepeat_even_spacing :
    (∀ N S : ℕ, 0 < N → N ≤ S →
      (decodeRepeat N S).length = S ∧
      (∀ j : ℕ, ((decodeRepeat N S)[j]? = some true ↔
        ∃ i : ℕ, i < N ∧ i * S / N = j)) ∧
      (decodeRepeat N S)[0]? = some true) ∧
    parsePatternFromCode "s(\"bd*4\")" 16 =
      some ([true, false, false, false, true, false, false, false,
             true, false, false, false, true, false, false, false], "bd") := by
  constructor
  · intro N S hN hNS
    have hS : 0 < S := lt_of_lt_of_le hN hNS
    have hlt : ∀ i : ℕ, i < N → i * S / N < S := by
      intro i hi
      rw [Nat.div_lt_iff_lt_mul hN, mul_comm S N]
      exact (Nat.mul_lt_mul_right hS).mpr hi
    have hchar : ∀ j : ℕ, ((decodeRepeat N S)[j]? = some true ↔
        ∃ i : ℕ, i < N ∧ i * S / N = j) := by
      intro j
      have hmain := foldl_set_getElem
        (fun i : ℕ => (⌊(i : ℚ) * ((S : ℚ) / (N : ℚ))⌋).toNat) S
        (List.range N) (List.replicate S false) (by simp) j
      rw [decodeRepeat, hmain]
      simp only [List.getElem?_replicate, List.mem_range, floor_mul_div]
      constructor
      · rintro (hfalse | ⟨i, hi, hij, _⟩)
        · by_cases hjS : j < S <;> simp [hjS] at hfalse
        · exact ⟨i, hi, hij⟩
      · rintro ⟨i, hi, hij⟩
        exact Or.inr ⟨i, hi, hij, hij ▸ hlt i hi⟩
    refine ⟨?_, hchar, ?_⟩
    · have hlen : ∀ (l : List ℕ) (base : List Bool),
          (l.foldl (fun steps (i : ℕ) =>
            if (⌊(i : ℚ) * ((S : ℚ) / (N : ℚ))⌋).toNat < S then
              steps.set ((⌊(i : ℚ) * ((S : ℚ) / (N : ℚ))⌋).toNat) true
            else steps) base).length = base.length := by
        intro l
        induction l with
        | nil => intro base; rfl
        | cons a t ih =>
          intro base
          rw [List.foldl_cons, ih]
          by_cases ha : (⌊(a : ℚ) * ((S : ℚ) / (N : ℚ))⌋).toNat < S <;>
            simp [ha]
      rw [decodeRepeat]
      rw [hlen (List.range N) (List.replicate S false)]
      simp
    · rw [hchar 0]
      exact ⟨0, hN, by simp⟩
  · have hbridge : parsePatternFromCode "s(\"bd*4\")" 16 =
        some (decodeRepeat 4 16, "bd") := rfl
    rw [hbridge, decodeRepeat_eq_map 4 16 (by decide) (by decide)]
    decide

/-- Witness for C8 at `N = 4`, `S = 16`. -/
theorem decodeRepeat_even_spacing_witness :
    ((decodeRepeat 4 16).length = 16 ∧
      (∀ j : ℕ, ((decodeRepeat 4 16)[j]? = some true ↔
        ∃ i : ℕ, i < 4 ∧ i * 16 / 4 = j)) ∧
      (decodeRepeat 4 16)[0]? = some true) ∧
    parsePatternFromCode "s(\"bd*4\")" 16 =
      some ([true, false, false, false, true, false, false, false,
             true, false, false, false, true, false, false, false], "bd") :=
  ⟨decodeRepeat_even_spacing.1 4 16 (by decide) (by decide),
   decodeRepeat_even_spacing.2⟩

/-! ## Character-class and scanning helpers (shared by C10 and C7) -/

theorem takeWhile_append_all {p : Char → Bool} {xs : List Char}
    (h : ∀ c ∈ xs, p c = true) (ys : List Char) :
    (xs ++ ys).takeWhile p = xs ++ ys.takeWhile p := by
  induction xs with
  | nil => rfl
  | cons a t ih =>
    rw [List.cons_append, List.takeWhile_cons_of_pos (h a (List.mem_cons_self a t)),
      ih (fun c hc => h c (List.mem_cons_of_mem a hc))]
    rfl

theorem dropWhile_append_all {p : Char → Bool} {xs : List Char}
    (h : ∀ c ∈ xs, p c = true) (ys : List Char) :
    (xs ++ ys).dropWhile p = ys.dropWhile p := by
  induction xs with
  | nil => rfl
  | cons a t ih =>
    rw [List.cons_append, List.dropWhile_cons_of_pos (h a (List.mem_cons_self a t)),
      ih (fun c hc => h c (List.mem_cons_of_mem a hc))]

theorem takeWhile_all {p : Char → Bool} {xs : List Char}
    (h : ∀ c ∈ xs, p c = true) : xs.takeWhile p = xs := by
  have := takeWhile_append_all h []
  simpa using this

theorem dropWhile_all {p : Char → Bool} {xs : List Char}
    (h : ∀ c ∈ xs, p c = true) : xs.dropWhile p = [] := by
  have := dropWhile_append_all h []
  simpa using this

theorem isWS_of_wordChar {c : Char} (h : isWordChar c = true) :
    isWS c = false := by
  by_contra hws
  have hws' : isWS c = true := by
    cases hc : isWS c
    · exact absurd hc hws
    · rfl
  simp only [isWS, Bool.or_eq_true, decide_eq_true_eq] at hws'
  rcases hws' with ((rfl | rfl) | rfl) | rfl <;> exact absurd h (by decide)

theorem ne_quote_of_wordChar {c : Char} (h : isWordChar c = true) :
    c ≠ '"' := by
  intro rfl0
  subst rfl0
  exact absurd h (by decide)

theorem string_ne_empty_iff (s : String) : s ≠ "" ↔ s.data ≠ [] := by
  cases s with
  | mk d =>
    constructor
    · intro h hd
      exact h (by simpa using congrArg String.mk hd)
    · intro h hd
      apply h
      simpa using congrArg String.data hd

/-! ## C10: step-grid encode / decode round trip -/

theorem joinSep_data_cons₂ (b c : String) (r : List String) :
    (joinSep " " (b :: c :: r)).data =
      b.data ++ ' ' :: (joinSep " " (c :: r)).data := by
  rw [joinSep, String.data_append, String.data_append, List.append_assoc]
  rfl

theorem splitWSAux_append (t : List Char) (ht : ∀ c ∈ t, isWS c = false)
    (rest acc : List Char) :
    splitWSAux (t ++ rest) acc = splitWSAux rest (t.reverse ++ acc) := by
  induction t generalizing acc with
  | nil => simp
  | cons c t' ih =>
    have hc : isWS c = false := ht c (List.mem_cons_self c t')
    rw [List.cons_append, splitWSAux, if_neg (by simp [hc]),
      ih (fun x hx => ht x (List.mem_cons_of_mem c hx)) (c :: acc)]
    simp

/-- `split(/\s+/)` undoes `join(' ')` on non-empty whitespace-free
tokens. -/
theorem splitWS_joinSep (toks : List String) (hne : toks ≠ [])
    (h : ∀ t ∈ toks, t.data ≠ [] ∧ ∀ c ∈ t.data, isWS c = false) :
    splitWS (joinSep " " toks) = toks := by
  induction toks with
  | nil => exact absurd rfl hne
  | cons a r ih =>
    cases r with
    | nil =>
      have ha := h a (List.mem_cons_self a [])
      show splitWSAux (joinSep " " [a]).data [] = [a]
      have : (joinSep " " [a]).data = a.data ++ [] := by simp [joinSep]
      rw [this, splitWSAux_append a.data ha.2 [] []]
      simp [splitWSAux]
    | cons b r' =>
      have ha := h a (List.mem_cons_self a (b :: r'))
      have hb := h b (List.mem_cons_of_mem a (List.mem_cons_self b r'))
      show splitWSAux (joinSep " " (a :: b :: r')).data [] = a :: b :: r'
      rw [joinSep_data_cons₂, splitWSAux_append a.data ha.2 _ []]
      rw [splitWSAux, if_pos (by decide)]
      have htail : ∃ c0 t0, (joinSep " " (b :: r')).data = c0 :: t0 ∧
          isWS c0 = false := by
        obtain ⟨c0, t0, hbd⟩ : ∃ c0 t0, b.data = c0 :: t0 := by
          cases hbb : b.data with
          | nil => exact absurd hbb hb.1
          | cons x xs => exact ⟨x, xs, rfl⟩
        have hc0 : isWS c0 = false := hb.2 c0 (by rw [hbd]; exact List.mem_cons_self c0 t0)
        cases r' with
        | nil => exact ⟨c0, t0, by simpa [joinSep] using hbd, hc0⟩
        | cons d r'' =>
          refine ⟨c0, t0 ++ ' ' :: (joinSep " " (d :: r'')).data, ?_, hc0⟩
          rw [joinSep_data_cons₂, hbd]
          rfl
      obtain ⟨c0, t0, htl, hc0⟩ := htail
      rw [htl, List.dropWhile_cons_of_neg (by simp [hc0]), ← htl]
      have hrec := ih (by simp)
        (fun t ht => h t (List.mem_cons_of_mem a ht))
      rw [show splitWSAux (joinSep " " (b :: r')).data [] =
          splitWS (joinSep " " (b :: r')) from rfl, hrec]
      simp

/-- The encoded tokens parse back: each hit token is the sound name,
each rest token is `~`. -/
theorem map_back_tokens (steps : List Bool) (name : String)
    (h2 : name ≠ "") (h3 : ∀ c ∈ name.data, isWordChar c = true) :
    (steps.map (fun h => if h then name else "~")).map
      (fun s => s != "~" && s != "") = steps := by
  have hname_ne : name ≠ "~" := by
    intro rfl0
    have : '~' ∈ name.data := by rw [rfl0]; decide
    exact absurd (h3 '~' this) (by decide)
  rw [List.map_map]
  have : ((fun s => s != "~" && s != "") ∘ fun h => if h then name else "~") =
      id := by
    funext b
    cases b with
    | true =>
      simp only [Function.comp, if_pos, id]
      rw [Bool.and_eq_true, bne_iff_ne, bne_iff_ne]
      exact ⟨hname_ne, h2⟩
    | false => simp
  rw [this, List.map_id]

theorem find_back_tokens (steps : List Bool) (name : String)
    (h2 : name ≠ "") (h3 : ∀ c ∈ name.data, isWordChar c = true) :
    (((steps.map (fun h => if h then name else "~")).find?
        (fun s => s != "~" && s != "")).getD "bd") =
      if true ∈ steps then name else "bd" := by
  have hname_ne : name ≠ "~" := by
    intro rfl0
    have : '~' ∈ name.data := by rw [rfl0]; decide
    exact absurd (h3 '~' this) (by decide)
  have hpred : ((name != "~" && name != "") = true) := by
    rw [Bool.and_eq_true, bne_iff_ne, bne_iff_ne]
    exact ⟨hname_ne, h2⟩
  induction steps with
  | nil => simp
  | cons b t ih =>
    cases b with
    | true =>
      rw [List.map_cons, if_pos rfl]
      simp [List.find?_cons, hpred]
    | false =>
      have hp : ((("~" : String) != "~") && (("~" : String) != "")) = false := by
        decide
      have hskip : (List.find? (fun s => s != "~" && s != "")
          ("~" :: List.map (fun h => if h = true then name else "~") t)) =
          List.find? (fun s => s != "~" && s != "")
            (List.map (fun h => if h = true then name else "~") t) := by
        rw [List.find?_cons, hp]
      rw [List.map_cons, if_neg (by simp), hskip, ih]
      simp

theorem mem_joinSep_data (toks : List String) (c : Char)
    (hc : c ∈ (joinSep " " toks).data) :
    c = ' ' ∨ ∃ t ∈ toks, c ∈ t.data := by
  induction toks with
  | nil => simp [joinSep] at hc
  | cons a r ih =>
    cases r with
    | nil =>
      right
      exact ⟨a, by simp, by simpa [joinSep] using hc⟩
    | cons b r' =>
      rw [joinSep_data_cons₂] at hc
      rcases List.mem_append.mp hc with h | h
      · right
        exact ⟨a, by simp, h⟩
      · rcases List.mem_cons.mp h with rfl | h'
        · left
          rfl
        · rcases ih h' with h'' | ⟨t, ht, hct⟩
          · left
            exact h''
          · right
            exact ⟨t, List.mem_cons_of_mem a ht, hct⟩

theorem joinSep_data_cons (a : String) (r : List String) :
    ∃ s, (joinSep " " (a :: r)).data = a.data ++ s ∧
      (s = [] ∨ ∃ s', s = ' ' :: s') := by
  cases r with
  | nil => exact ⟨[], by simp [joinSep], Or.inl rfl⟩
  | cons b r' =>
    exact ⟨' ' :: (joinSep " " (b :: r')).data, joinSep_data_cons₂ a b r',
      Or.inr ⟨_, rfl⟩⟩

/-- **C10** (amended): encode-then-decode on the step grid is the
identity for every non-empty grid and every non-empty sound name of
word characters: generating a fragment from the grid and parsing it
back (at any requested grid size) returns exactly the same grid, with
the given sound name when the grid has a hit (and the default `"bd"`
otherwise). The non-emptiness of the name is needed:
`encode_decode_fails_for_empty_name`. -/
theorem encode_decode_roundtrip (steps : List Bool) (name : String) (S : ℕ)
    (h1 : steps ≠ []) (h2 : name ≠ "")
    (h3 : ∀ c ∈ name.data, isWordChar c = true) :
    parsePatternFromCode (generatePatternCode steps name) S =
      some (steps, if true ∈ steps then name else "bd") := by
  have htokprop : ∀ t ∈ steps.map (fun h => if h then name else "~"),
      t.data ≠ [] ∧ (∀ c ∈ t.data, isWS c = false) ∧
        (∀ c ∈ t.data, c ≠ '"') := by
    intro t ht
    rw [List.mem_map] at ht
    obtain ⟨b, _, rfl⟩ := ht
    cases b with
    | true =>
      refine ⟨(string_ne_empty_iff name).mp h2, ?_, ?_⟩
      · exact fun c hc => isWS_of_wordChar (h3 c hc)
      · exact fun c hc => ne_quote_of_wordChar (h3 c hc)
    | false =>
      refine ⟨?_, ?_, ?_⟩
      all_goals simp only [Bool.false_eq_true, if_false]
      all_goals decide
  have htoksne : steps.map (fun h => if h then name else "~") ≠ [] := by
    cases steps with
    | nil => exact absurd rfl h1
    | cons b t => simp
  have hgen : (generatePatternCode steps name).data =
      's' :: '(' :: '"' ::
        ((joinSep " " (steps.map (fun h => if h then name else "~"))).data ++
          ['"', ')']) := by
    rw [generatePatternCode, String.data_append, String.data_append,
      List.append_assoc]
    rfl
  have hbodyne :
      (joinSep " " (steps.map (fun h => if h then name else "~"))).data ≠ [] := by
    cases hst : steps with
    | nil => exact absurd hst h1
    | cons b t =>
      rw [List.map_cons]
      obtain ⟨s, hs, _⟩ := joinSep_data_cons (if b then name else "~")
        (t.map (fun h => if h then name else "~"))
      rw [hs]
      have : (if b then name else "~").data ≠ [] :=
        (htokprop _ (by rw [hst, List.map_cons]; exact List.mem_cons_self _ _)).1
      cases hd : (if b then name else "~").data with
      | nil => exact absurd hd this
      | cons x xs => simp [hd]
  have hq : ∀ c ∈ (joinSep " " (steps.map (fun h => if h then name else "~"))).data,
      (decide ¬(c = '"')) = true := by
    intro c hc
    rcases mem_joinSep_data _ c hc with rfl | ⟨t, ht, hct⟩
    · decide
    · exact decide_eq_true ((htokprop t ht).2.2 c hct)
  have hfind : findS (generatePatternCode steps name).data =
      some (joinSep " " (steps.map (fun h => if h then name else "~"))).data := by
    rw [hgen]
    show (match matchSAt ('s' :: '(' :: '"' :: _) with
      | some p => some p
      | none => findS _) = _
    rw [show matchSAt ('s' :: '(' :: '"' ::
        ((joinSep " " (steps.map (fun h => if h then name else "~"))).data ++
          ['"', ')'])) =
        some (joinSep " " (steps.map (fun h => if h then name else "~"))).data
      from ?_]
    · rw [matchSAt]
      rw [takeWhile_append_all hq, dropWhile_append_all hq]
      have ht1 : List.takeWhile (fun c => decide ¬(c = '"')) ['"', ')'] = [] := rfl
      have ht2 : List.dropWhile (fun c => decide ¬(c = '"')) ['"', ')'] =
        ['"', ')'] := rfl
      rw [ht1, ht2, List.append_nil]
      simp [hbodyne]
  have hrep : parseRepeat
      (joinSep " " (steps.map (fun h => if h then name else "~"))).data = none := by
    cases hst : steps with
    | nil => exact absurd hst h1
    | cons b t =>
      rw [List.map_cons]
      obtain ⟨s, hs, hsh⟩ := joinSep_data_cons (if b then name else "~")
        (t.map (fun h => if h then name else "~"))
      rw [hs]
      cases b with
      | false =>
        -- the first token is `~`, which is not a word character
        rw [if_neg (by simp)]
        rw [parseRepeat]
        rw [show ("~" : String).data ++ s = '~' :: s from rfl]
        rw [List.takeWhile_cons_of_neg (by decide),
          List.dropWhile_cons_of_neg (by decide)]
        simp
      | true =>
        rw [if_pos rfl]
        rw [parseRepeat]
        rw [takeWhile_append_all (fun c hc => h3 c hc),
          dropWhile_append_all (fun c hc => h3 c hc)]
        have hw : name.data ≠ [] := (string_ne_empty_iff name).mp h2
        rcases hsh with rfl | ⟨s', rfl⟩
        · simp only [List.takeWhile_nil, List.dropWhile_nil, List.append_nil]
          simp [hw]
        · rw [List.takeWhile_cons_of_neg (by decide),
            List.dropWhile_cons_of_neg (by decide), List.append_nil]
          simp [hw]
  simp only [parsePatternFromCode, hfind, hrep]
  have hmk : String.mk
      (joinSep " " (steps.map (fun h => if h then name else "~"))).data =
      joinSep " " (steps.map (fun h => if h then name else "~")) := rfl
  rw [hmk, splitWS_joinSep _ htoksne
    (fun t ht => ⟨(htokprop t ht).1, (htokprop t ht).2.1⟩)]
  rw [map_back_tokens steps name h2 h3, find_back_tokens steps name h2 h3]

/-- **C10** (counterexample): with the empty sound name — a string made
only of word characters, vacuously — encoding the one-hit grid produces
`s("")`, whose pattern group `[^"]+` cannot match, so decoding returns
`none` instead of the original grid. -/
theorem encode_decode_fails_for_empty_name :
    parsePatternFromCode (generatePatternCode [true] "") 16 = none := by
  decide

/-- Witness for the amended C10 at a concrete two-cell grid. -/
theorem encode_decode_roundtrip_witness :
    parsePatternFromCode (generatePatternCode [true, false] "bd") 16 =
      some ([true, false], if true ∈ [true, false] then "bd" else "bd") :=
  encode_decode_roundtrip [true, false] "bd" 16 (by decide)
    (by decide) (by decide)

/-! ## C7: parameter extraction and rewrite

The development follows the scanner: `mkP n v` is the text of one match
`.n(v)`; the key lemmas show that a match attempt starting strictly
before a well-formed match span can never succeed across its boundary,
so rewriting one match's value leaves every other match intact. -/

/-- The text of one regex match: `.name(value)`. -/
def mkP (n v : List Char) : List Char := '.' :: (n ++ '(' :: (v ++ [')']))

theorem mkP_length (n v : List Char) :
    (mkP n v).length = n.length + v.length + 3 := by
  simp [mkP]
  omega

theorem matchParamAt_cons_ne {c : Char} (l : List Char) (h : ¬ c = '.') :
    matchParamAt (c :: l) = none := by
  simp [matchParamAt, h]

theorem matchParamAt_cons_dot (rest : List Char) :
    matchParamAt ('.' :: rest) =
      (match rest.dropWhile isWordChar with
       | [] => none
       | c1 :: rest2 =>
         if rest.takeWhile isWordChar = [] then none
         else if c1 = '(' then
           match rest2.dropWhile isDigitDot with
           | [] => none
           | c3 :: _ =>
             if rest2.takeWhile isDigitDot = [] then none
             else if c3 = ')' then
               some (String.mk (rest.takeWhile isWordChar),
                 String.mk (rest2.takeWhile isDigitDot),
                 (rest.takeWhile isWordChar).length +
                   (rest2.takeWhile isDigitDot).length + 3)
             else none
         else none) := by
  simp [matchParamAt]

/-- A well-formed match text at the head always matches, whatever
follows. -/
theorem matchParamAt_mk (n v X : List Char) (hn : n ≠ [])
    (hnw : ∀ c ∈ n, isWordChar c = true) (hv : v ≠ [])
    (hvd : ∀ c ∈ v, isDigitDot c = true) :
    matchParamAt (mkP n v ++ X) =
      some (String.mk n, String.mk v, n.length + v.length + 3) := by
  have h1 : mkP n v ++ X = '.' :: (n ++ ('(' :: (v ++ (')' :: X)))) := by
    simp [mkP]
  rw [h1, matchParamAt_cons_dot]
  rw [takeWhile_append_all hnw, dropWhile_append_all hnw,
    List.takeWhile_cons_of_neg (by decide), List.dropWhile_cons_of_neg (by decide),
    List.append_nil]
  have h2 : List.takeWhile isDigitDot (v ++ ')' :: X) = v := by
    rw [takeWhile_append_all hvd, List.takeWhile_cons_of_neg (by decide),
      List.append_nil]
  have h3 : List.dropWhile isDigitDot (v ++ ')' :: X) = ')' :: X := by
    rw [dropWhile_append_all hvd, List.dropWhile_cons_of_neg (by decide)]
  simp [hn, hv, h2, h3]

theorem dropWhile_head_false {p : Char → Bool} {l : List Char} {r0 : Char}
    {r1 : List Char} (h : l.dropWhile p = r0 :: r1) : p r0 = false := by
  induction l with
  | nil => simp at h
  | cons a t ih =>
    by_cases pa : p a = true
    · rw [List.dropWhile_cons_of_pos pa] at h
      exact ih h
    · rw [List.dropWhile_cons_of_neg pa] at h
      cases h
      cases hp : p r0
      · rfl
      · exact absurd hp pa

theorem takeWhile_append_of_dropWhile_cons {p : Char → Bool} {l : List Char}
    {r0 : Char} {r1 : List Char} (h : l.dropWhile p = r0 :: r1)
    (X : List Char) : (l ++ X).takeWhile p = l.takeWhile p := by
  conv_lhs => rw [← List.takeWhile_append_dropWhile (p := p) (l := l), h]
  rw [List.append_assoc, takeWhile_append_all (fun c hc => List.mem_takeWhile_imp hc),
    List.cons_append, List.takeWhile_cons_of_neg (by simp [dropWhile_head_false h]),
    List.append_nil]

theorem dropWhile_append_of_dropWhile_cons {p : Char → Bool} {l : List Char}
    {r0 : Char} {r1 : List Char} (h : l.dropWhile p = r0 :: r1)
    (X : List Char) : (l ++ X).dropWhile p = r0 :: (r1 ++ X) := by
  conv_lhs => rw [← List.takeWhile_append_dropWhile (p := p) (l := l), h]
  rw [List.append_assoc, dropWhile_append_all (fun c hc => List.mem_takeWhile_imp hc),
    List.cons_append, List.dropWhile_cons_of_neg (by simp [dropWhile_head_false h])]

/-- A match attempt starting strictly before a well-formed match text
`mkP n v` either fails in both the `v`- and the `v'`-string, or succeeds
identically in both with a span that stays inside the prefix `u` — a
match can never extend across the boundary into the replaced span. -/
theorem matchParamAt_cross (u n v v' A : List Char) (hu : u ≠ [])
    (hnw : ∀ c ∈ n, isWordChar c = true) :
    (matchParamAt (u ++ (mkP n v ++ A)) = none ∧
     matchParamAt (u ++ (mkP n v' ++ A)) = none) ∨
    (∃ nm vl len, 1 ≤ len ∧ len ≤ u.length ∧
      matchParamAt (u ++ (mkP n v ++ A)) = some (nm, vl, len) ∧
      matchParamAt (u ++ (mkP n v' ++ A)) = some (nm, vl, len)) := by
  obtain ⟨c, u₁, rfl⟩ : ∃ c u₁, u = c :: u₁ := by
    cases u with
    | nil => exact absurd rfl hu
    | cons c u₁ => exact ⟨c, u₁, rfl⟩
  by_cases hc : c = '.'
  case neg =>
    left
    rw [List.cons_append, List.cons_append]
    exact ⟨matchParamAt_cons_ne _ hc, matchParamAt_cons_ne _ hc⟩
  case pos =>
  subst hc
  rw [List.cons_append, List.cons_append, matchParamAt_cons_dot,
    matchParamAt_cons_dot]
  cases hr : u₁.dropWhile isWordChar with
  | nil =>
    have hall : ∀ x ∈ u₁, isWordChar x = true := by
      simpa using List.dropWhile_eq_nil_iff.mp hr
    have hd : ∀ (vv A' : List Char),
        List.dropWhile isWordChar (u₁ ++ (mkP n vv ++ A')) =
          '.' :: ((n ++ '(' :: (vv ++ [')'])) ++ A') := by
      intro vv A'
      rw [show u₁ ++ (mkP n vv ++ A') =
          u₁ ++ ('.' :: ((n ++ '(' :: (vv ++ [')'])) ++ A')) from by simp [mkP],
        dropWhile_append_all hall, List.dropWhile_cons_of_neg (by decide)]
    left
    rw [hd v A, hd v' A]
    constructor <;> simp
  | cons r0 r1 =>
    have htw : ∀ X, (u₁ ++ X).takeWhile isWordChar = u₁.takeWhile isWordChar :=
      takeWhile_append_of_dropWhile_cons hr
    have hdw : ∀ X, (u₁ ++ X).dropWhile isWordChar = r0 :: (r1 ++ X) :=
      dropWhile_append_of_dropWhile_cons hr
    rw [hdw (mkP n v ++ A), hdw (mkP n v' ++ A), htw (mkP n v ++ A),
      htw (mkP n v' ++ A)]
    by_cases hw0 : u₁.takeWhile isWordChar = []
    · left
      constructor <;> simp [hw0]
    · by_cases hr0p : r0 = '('
      case neg =>
        left
        constructor <;> simp [hw0, hr0p]
      case pos =>
      subst hr0p
      cases hs : r1.dropWhile isDigitDot with
      | nil =>
        have hall1 : ∀ x ∈ r1, isDigitDot x = true := by
          simpa using List.dropWhile_eq_nil_iff.mp hs
        cases hsn : n.dropWhile isDigitDot with
        | nil =>
          have halln : ∀ x ∈ n, isDigitDot x = true := by
            simpa using List.dropWhile_eq_nil_iff.mp hsn
          have hstep : ∀ (vv A' : List Char),
              List.dropWhile isDigitDot (r1 ++ (mkP n vv ++ A')) =
                '(' :: (vv ++ (')' :: A')) := by
            intro vv A'
            rw [show r1 ++ (mkP n vv ++ A') =
                r1 ++ ('.' :: (n ++ ('(' :: (vv ++ (')' :: A'))))) from by
                  simp [mkP],
              dropWhile_append_all hall1,
              List.dropWhile_cons_of_pos (by decide),
              dropWhile_append_all halln,
              List.dropWhile_cons_of_neg (by decide)]
          left
          constructor <;> simp [hstep]
        | cons sn0 sn1 =>
          have hsn0 : isDigitDot sn0 = false := dropWhile_head_false hsn
          have hsn0mem : sn0 ∈ n := by
            have hmem : sn0 ∈ n.dropWhile isDigitDot := by
              rw [hsn]
              exact List.mem_cons_self sn0 sn1
            exact (List.takeWhile_append_dropWhile (p := isDigitDot)
              (l := n)) ▸ List.mem_append_right _ hmem
          have hsn0ne : ¬ sn0 = ')' := by
            intro h0
            subst h0
            exact absurd (hnw _ hsn0mem) (by decide)
          have hstep : ∀ (vv A' : List Char),
              List.dropWhile isDigitDot (r1 ++ (mkP n vv ++ A')) =
                sn0 :: (sn1 ++ ('(' :: (vv ++ (')' :: A')))) := by
            intro vv A'
            rw [show r1 ++ (mkP n vv ++ A') =
                r1 ++ ('.' :: (n ++ ('(' :: (vv ++ (')' :: A'))))) from by
                  simp [mkP],
              dropWhile_append_all hall1,
              List.dropWhile_cons_of_pos (by decide),
              dropWhile_append_of_dropWhile_cons hsn]
          left
          constructor <;> simp [hstep, hsn0ne]
      | cons s0 s1 =>
        have htw2 : ∀ X, (r1 ++ X).takeWhile isDigitDot =
            r1.takeWhile isDigitDot := takeWhile_append_of_dropWhile_cons hs
        have hdw2 : ∀ X, (r1 ++ X).dropWhile isDigitDot = s0 :: (s1 ++ X) :=
          dropWhile_append_of_dropWhile_cons hs
        by_cases hd0 : r1.takeWhile isDigitDot = []
        · left
          constructor <;> simp [htw2, hdw2, hd0]
        · by_cases hs0p : s0 = ')'
          case pos =>
            subst hs0p
            right
            refine ⟨String.mk (u₁.takeWhile isWordChar),
              String.mk (r1.takeWhile isDigitDot),
              (u₁.takeWhile isWordChar).length +
                (r1.takeWhile isDigitDot).length + 3,
              by omega, ?_, by simp [htw2, hdw2, hw0, hd0],
              by simp [htw2, hdw2, hw0, hd0]⟩
            have e1 := congrArg List.length
              (List.takeWhile_append_dropWhile (p := isWordChar) (l := u₁))
            rw [hr] at e1
            simp only [List.length_append, List.length_cons] at e1
            have e2 := congrArg List.length
              (List.takeWhile_append_dropWhile (p := isDigitDot) (l := r1))
            rw [hs] at e2
            simp only [List.length_append, List.length_cons] at e2
            simp only [List.length_cons]
            omega
          case neg =>
            left
            constructor <;> simp [htw2, hdw2, hd0, hs0p]

/-- Inverting a successful match attempt: the input starts with the
well-formed match text, the length is the text's length, and the
captures are non-empty runs of their character classes. -/
theorem matchParamAt_some_facts {l : List Char} {nm vl : String} {len : ℕ}
    (h : matchParamAt l = some (nm, vl, len)) :
    l = mkP nm.data vl.data ++ l.drop len ∧
    len = nm.data.length + vl.data.length + 3 ∧
    nm.data ≠ [] ∧ (∀ c ∈ nm.data, isWordChar c = true) ∧
    vl.data ≠ [] ∧ (∀ c ∈ vl.data, isDigitDot c = true) := by
  cases l with
  | nil => simp [matchParamAt] at h
  | cons c rest =>
    by_cases hc : c = '.'
    case neg => rw [matchParamAt_cons_ne rest hc] at h; cases h
    case pos =>
    subst hc
    rw [matchParamAt_cons_dot] at h
    split at h
    · cases h
    next r0 r1 hr =>
      split at h
      next hw0 => cases h
      next hw0 =>
        split at h
        case isFalse hr0 => cases h
        case isTrue hr0 =>
          subst hr0
          split at h
          · cases h
          next s0 s1 hs =>
            split at h
            next hv0 => cases h
            next hv0 =>
              split at h
              case isFalse hs0 => cases h
              case isTrue hs0 =>
                subst hs0
                simp only [Option.some.injEq, Prod.mk.injEq] at h
                obtain ⟨h1, h2, h3⟩ := h
                subst h1
                subst h2
                subst h3
                have hrest : rest = rest.takeWhile isWordChar ++ ('(' :: r1) := by
                  conv_lhs => rw [← List.takeWhile_append_dropWhile
                    (p := isWordChar) (l := rest)]
                  rw [hr]
                have hr1 : r1 = r1.takeWhile isDigitDot ++ (')' :: s1) := by
                  conv_lhs => rw [← List.takeWhile_append_dropWhile
                    (p := isDigitDot) (l := r1)]
                  rw [hs]
                have hl : '.' :: rest =
                    mkP (rest.takeWhile isWordChar)
                      (r1.takeWhile isDigitDot) ++ s1 := by
                  conv_lhs => rw [hrest]
                  conv_lhs => rw [hr1]
                  simp [mkP]
                refine ⟨?_, by simp, hw0,
                  fun c hc => List.mem_takeWhile_imp hc, hv0,
                  fun c hc => List.mem_takeWhile_imp hc⟩
                have hdrop : ('.' :: rest).drop
                    ((rest.takeWhile isWordChar).length +
                      (r1.takeWhile isDigitDot).length + 3) = s1 := by
                  conv_lhs => rw [hl]
                  rw [show (rest.takeWhile isWordChar).length +
                      (r1.takeWhile isDigitDot).length + 3 =
                      (mkP (rest.takeWhile isWordChar)
                        (r1.takeWhile isDigitDot)).length from
                    (mkP_length _ _).symm]
                  exact List.drop_left _ _
                rw [hdrop]
                exact hl

/-- One step of scanning consumes at least one character on a match. -/
theorem matchParamAt_len_pos {l : List Char} {nm vl : String} {len : ℕ}
    (h : matchParamAt l = some (nm, vl, len)) : 1 ≤ len := by
  have := (matchParamAt_some_facts h).2.1
  omega

/-- The scan with fuel pinned to the list length. -/
def scan (l : List Char) (pos : ℕ) : List PMatch := scanParams l.length l pos

theorem scanParams_nil (f pos : ℕ) : scanParams f [] pos = [] := by
  cases f <;> rfl

theorem scanParams_fuel_eq : ∀ (k f : ℕ) (l : List Char) (pos : ℕ),
    l.length ≤ k → l.length ≤ f → scanParams f l pos = scan l pos := by
  intro k
  induction k with
  | zero =>
    intro f l pos hk _
    have : l = [] := by
      cases l with
      | nil => rfl
      | cons c t => simp at hk
    subst this
    rw [scanParams_nil, scan, scanParams_nil]
  | succ k ih =>
    intro f l pos hk hf
    cases l with
    | nil => rw [scanParams_nil, scan, scanParams_nil]
    | cons c rest =>
      obtain ⟨f', rfl⟩ : ∃ f', f = f' + 1 := by
        cases f with
        | zero => simp at hf
        | succ f' => exact ⟨f', rfl⟩
      cases hm : matchParamAt (c :: rest) with
      | none =>
        have h1 : scanParams (f' + 1) (c :: rest) pos =
            scanParams f' rest (pos + 1) := by
          simp [scanParams, hm]
        have h2 : scan (c :: rest) pos = scanParams rest.length rest (pos + 1) := by
          show scanParams (c :: rest).length (c :: rest) pos = _
          simp [scanParams, hm]
        rw [h1, h2, ih f' rest (pos + 1) (by simp at hk; omega)
          (by simp at hf; omega),
          ih rest.length rest (pos + 1) (by simp at hk; omega) le_rfl]
      | some nvl =>
        obtain ⟨nm, vl, len⟩ := nvl
        have hlp := matchParamAt_len_pos hm
        have hd : ((c :: rest).drop len).length ≤ rest.length := by
          rw [List.length_drop]
          simp only [List.length_cons]
          omega
        have h1 : scanParams (f' + 1) (c :: rest) pos =
            ⟨nm, vl, pos, len⟩ :: scanParams f' ((c :: rest).drop len)
              (pos + len) := by
          simp [scanParams, hm]
        have h2 : scan (c :: rest) pos =
            ⟨nm, vl, pos, len⟩ :: scanParams rest.length ((c :: rest).drop len)
              (pos + len) := by
          show scanParams (c :: rest).length (c :: rest) pos = _
          simp [scanParams, hm]
        rw [h1, h2,
          ih f' ((c :: rest).drop len) (pos + len)
            (le_trans hd (by simp at hk; omega))
            (le_trans hd (by simp at hf; omega)),
          ih rest.length ((c :: rest).drop len) (pos + len)
            (le_trans hd (by simp at hk; omega)) hd]

theorem scanParams_eq_scan (f : ℕ) (l : List Char) (pos : ℕ)
    (h : l.length ≤ f) : scanParams f l pos = scan l pos :=
  scanParams_fuel_eq l.length f l pos le_rfl h

theorem scan_nil (pos : ℕ) : scan [] pos = [] := rfl

theorem scan_cons_match {c : Char} {rest : List Char} {nm vl : String}
    {len : ℕ} (pos : ℕ) (h : matchParamAt (c :: rest) = some (nm, vl, len)) :
    scan (c :: rest) pos =
      ⟨nm, vl, pos, len⟩ :: scan ((c :: rest).drop len) (pos + len) := by
  have hlp := matchParamAt_len_pos h
  show scanParams (c :: rest).length (c :: rest) pos = _
  have h1 : scanParams (rest.length + 1) (c :: rest) pos =
      ⟨nm, vl, pos, len⟩ :: scanParams rest.length ((c :: rest).drop len)
        (pos + len) := by
    simp [scanParams, h]
  rw [show (c :: rest).length = rest.length + 1 from rfl, h1,
    scanParams_eq_scan rest.length _ _
      (by rw [List.length_drop]; simp only [List.length_cons]; omega)]

theorem scan_cons_nomatch {c : Char} {rest : List Char} (pos : ℕ)
    (h : matchParamAt (c :: rest) = none) :
    scan (c :: rest) pos = scan rest (pos + 1) := by
  show scanParams (c :: rest).length (c :: rest) pos = _
  have h1 : scanParams (rest.length + 1) (c :: rest) pos =
      scanParams rest.length rest (pos + 1) := by
    simp [scanParams, h]
  rw [show (c :: rest).length = rest.length + 1 from rfl, h1]
  rfl

/-- Scanning at a shifted start position shifts every match index. -/
theorem scan_shift : ∀ (k : ℕ) (l : List Char), l.length ≤ k →
    ∀ (pos d : ℕ), scan l (pos + d) =
      (scan l pos).map
        (fun m => ⟨m.name, m.valueStr, m.index + d, m.length⟩) := by
  intro k
  induction k with
  | zero =>
    intro l hk pos d
    have : l = [] := by
      cases l with
      | nil => rfl
      | cons c t => simp at hk
    subst this
    rfl
  | succ k ih =>
    intro l hk pos d
    cases l with
    | nil => rfl
    | cons c rest =>
      cases hm : matchParamAt (c :: rest) with
      | none =>
        rw [scan_cons_nomatch (pos + d) hm, scan_cons_nomatch pos hm,
          show pos + d + 1 = (pos + 1) + d by omega,
          ih rest (by simp at hk; omega) (pos + 1) d]
      | some nvl =>
        obtain ⟨nm, vl, len⟩ := nvl
        have hlp := matchParamAt_len_pos hm
        rw [scan_cons_match (pos + d) hm, scan_cons_match pos hm,
          show pos + d + len = (pos + len) + d by omega,
          ih ((c :: rest).drop len)
            (by rw [List.length_drop]; simp only [List.length_cons] at hk ⊢; omega)
            (pos + len) d]
        rfl

/-- Every match found from position `pos` has index at least `pos`. -/
theorem scan_index_ge : ∀ (k : ℕ) (l : List Char), l.length ≤ k →
    ∀ (pos : ℕ) (m : PMatch), m ∈ scan l pos → pos ≤ m.index := by
  intro k
  induction k with
  | zero =>
    intro l hk pos m hm
    have : l = [] := by
      cases l with
      | nil => rfl
      | cons c t => simp at hk
    subst this
    cases hm
  | succ k ih =>
    intro l hk pos m hm
    cases l with
    | nil => cases hm
    | cons c rest =>
      cases hmt : matchParamAt (c :: rest) with
      | none =>
        rw [scan_cons_nomatch pos hmt] at hm
        have := ih rest (by simp at hk; omega) (pos + 1) m hm
        omega
      | some nvl =>
        obtain ⟨nm, vl, len⟩ := nvl
        have hlp := matchParamAt_len_pos hmt
        rw [scan_cons_match pos hmt] at hm
        rcases List.mem_cons.mp hm with rfl | hm'
        · exact le_rfl
        · have := ih ((c :: rest).drop len)
            (by rw [List.length_drop]; simp only [List.length_cons] at hk ⊢; omega)
            (pos + len) m hm'
          omega

/-- The scan output is strictly sorted by match index. -/
theorem scan_sorted : ∀ (k : ℕ) (l : List Char), l.length ≤ k → ∀ pos : ℕ,
    List.Pairwise (fun a b : PMatch => a.index < b.index) (scan l pos) := by
  intro k
  induction k with
  | zero =>
    intro l hk pos
    have : l = [] := by
      cases l with
      | nil => rfl
      | cons c t => simp at hk
    subst this
    exact List.Pairwise.nil
  | succ k ih =>
    intro l hk pos
    cases l with
    | nil => exact List.Pairwise.nil
    | cons c rest =>
      cases hmt : matchParamAt (c :: rest) with
      | none =>
        rw [scan_cons_nomatch pos hmt]
        exact ih rest (by simp at hk; omega) (pos + 1)
      | some nvl =>
        obtain ⟨nm, vl, len⟩ := nvl
        have hlp := matchParamAt_len_pos hmt
        have hdlen : ((c :: rest).drop len).length ≤ k := by
          rw [List.length_drop]
          simp only [List.length_cons] at hk ⊢
          omega
        rw [scan_cons_match pos hmt]
        refine List.Pairwise.cons ?_ (ih _ hdlen (pos + len))
        intro m' hm'
        have := scan_index_ge k ((c :: rest).drop len) hdlen (pos + len) m' hm'
        show pos < m'.index
        omega

/-- Scanning a well-formed match text at the head: one match, then the
scan of the remainder. -/
theorem scan_mkP (n v A : List Char) (pos : ℕ) (hn : n ≠ [])
    (hnw : ∀ c ∈ n, isWordChar c = true) (hv : v ≠ [])
    (hvd : ∀ c ∈ v, isDigitDot c = true) :
    scan (mkP n v ++ A) pos =
      ⟨String.mk n, String.mk v, pos, n.length + v.length + 3⟩ ::
        scan A (pos + (n.length + v.length + 3)) := by
  have hm := matchParamAt_mk n v A hn hnw hv hvd
  have hform : mkP n v ++ A = '.' :: ((n ++ '(' :: (v ++ [')'])) ++ A) := by
    simp [mkP]
  have hdrop : (mkP n v ++ A).drop (n.length + v.length + 3) = A := by
    rw [show n.length + v.length + 3 = (mkP n v).length from
      (mkP_length n v).symm]
    exact List.drop_left _ _
  rw [hform] at hm hdrop ⊢
  rw [scan_cons_match pos hm, hdrop]

/-- Replacing the value of a well-formed match span changes only that
match in the scan: the matches before it are untouched, the match
itself keeps its name and position, and the matches after it are the
scan of the tail. -/
theorem scan_splice : ∀ (k : ℕ) (B : List Char), B.length ≤ k →
    ∀ (n v v' A : List Char) (pos : ℕ),
    n ≠ [] → (∀ c ∈ n, isWordChar c = true) →
    v ≠ [] → (∀ c ∈ v, isDigitDot c = true) →
    v' ≠ [] → (∀ c ∈ v', isDigitDot c = true) →
    ∃ P : List PMatch,
      scan (B ++ (mkP n v ++ A)) pos =
        P ++ ⟨String.mk n, String.mk v, pos + B.length,
          n.length + v.length + 3⟩ ::
          scan A (pos + B.length + (n.length + v.length + 3)) ∧
      scan (B ++ (mkP n v' ++ A)) pos =
        P ++ ⟨String.mk n, String.mk v', pos + B.length,
          n.length + v'.length + 3⟩ ::
          scan A (pos + B.length + (n.length + v'.length + 3)) := by
  intro k
  induction k with
  | zero =>
    intro B hk n v v' A pos hn hnw hv hvd hv' hvd'
    have hB : B = [] := by
      cases B with
      | nil => rfl
      | cons c t => simp at hk
    subst hB
    refine ⟨[], ?_, ?_⟩ <;>
      simp [scan_mkP _ _ _ _ hn hnw hv hvd, scan_mkP _ _ _ _ hn hnw hv' hvd']
  | succ k ih =>
    intro B hk n v v' A pos hn hnw hv hvd hv' hvd'
    cases B with
    | nil =>
      refine ⟨[], ?_, ?_⟩ <;>
        simp [scan_mkP _ _ _ _ hn hnw hv hvd, scan_mkP _ _ _ _ hn hnw hv' hvd']
    | cons c B₁ =>
      rcases matchParamAt_cross (c :: B₁) n v v' A (by simp) hnw with
        ⟨hn1, hn2⟩ | ⟨nm, vl, len, hlen1, hlenu, hs1, hs2⟩
      · simp only [List.cons_append] at hn1 hn2 ⊢
        obtain ⟨P₁, hP1, hP2⟩ := ih B₁ (by simp at hk; omega) n v v' A
          (pos + 1) hn hnw hv hvd hv' hvd'
        have hpos : pos + 1 + B₁.length = pos + (c :: B₁).length := by
          simp only [List.length_cons]
          omega
        rw [hpos] at hP1 hP2
        exact ⟨P₁, by rw [scan_cons_nomatch pos hn1, hP1],
          by rw [scan_cons_nomatch pos hn2, hP2]⟩
      · simp only [List.cons_append] at hs1 hs2 ⊢
        obtain ⟨len', rfl⟩ : ∃ len', len = len' + 1 := by
          cases len with
          | zero => omega
          | succ l => exact ⟨l, rfl⟩
        have hlen' : len' ≤ B₁.length := by
          simp only [List.length_cons] at hlenu
          omega
        have hdrop : ∀ X : List Char,
            (c :: (B₁ ++ X)).drop (len' + 1) = B₁.drop len' ++ X := by
          intro X
          rw [List.drop_succ_cons, List.drop_append_of_le_length hlen']
        obtain ⟨P₂, hP1, hP2⟩ := ih (B₁.drop len')
          (by rw [List.length_drop]; simp only [List.length_cons] at hk; omega)
          n v v' A (pos + (len' + 1)) hn hnw hv hvd hv' hvd'
        have hpos : pos + (len' + 1) + (B₁.drop len').length =
            pos + (c :: B₁).length := by
          rw [List.length_drop]
          simp only [List.length_cons]
          omega
        rw [hpos] at hP1 hP2
        refine ⟨⟨nm, vl, pos, len' + 1⟩ :: P₂, ?_, ?_⟩
        · rw [scan_cons_match pos hs1, hdrop, hP1, List.cons_append]
        · rw [scan_cons_match pos hs2, hdrop, hP2, List.cons_append]

/-- Every match in the scan output cuts the input into a prefix, the
match's own well-formed text, and a tail whose scan is exactly the
remaining output. -/
theorem scan_decomp : ∀ (k : ℕ) (l : List Char), l.length ≤ k →
    ∀ (pos : ℕ) (ps₁ : List PMatch) (m : PMatch) (ps₂ : List PMatch),
    scan l pos = ps₁ ++ m :: ps₂ →
    ∃ B A, l = B ++ (mkP m.name.data m.valueStr.data ++ A) ∧
      m.index = pos + B.length ∧
      m.length = m.name.data.length + m.valueStr.data.length + 3 ∧
      m.name.data ≠ [] ∧ (∀ c ∈ m.name.data, isWordChar c = true) ∧
      m.valueStr.data ≠ [] ∧ (∀ c ∈ m.valueStr.data, isDigitDot c = true) ∧
      ps₂ = scan A (m.index + m.length) := by
  intro k
  induction k with
  | zero =>
    intro l hk pos ps₁ m ps₂ h
    have : l = [] := by
      cases l with
      | nil => rfl
      | cons c t => simp at hk
    subst this
    rw [scan_nil] at h
    exact absurd h.symm (by simp)
  | succ k ih =>
    intro l hk pos ps₁ m ps₂ h
    cases l with
    | nil =>
      rw [scan_nil] at h
      exact absurd h.symm (by simp)
    | cons c rest =>
      cases hmt : matchParamAt (c :: rest) with
      | none =>
        rw [scan_cons_nomatch pos hmt] at h
        obtain ⟨B', A, hl, hidx, hrest⟩ := ih rest (by simp at hk; omega)
          (pos + 1) ps₁ m ps₂ h
        refine ⟨c :: B', A, by rw [List.cons_append, hl], ?_, hrest⟩
        simp only [List.length_cons]
        omega
      | some nvl =>
        obtain ⟨nm, vl, len⟩ := nvl
        have hfacts := matchParamAt_some_facts hmt
        have hlp : 1 ≤ len := by
          have := hfacts.2.1
          omega
        rw [scan_cons_match pos hmt] at h
        cases ps₁ with
        | nil =>
          simp only [List.nil_append, List.cons.injEq] at h
          obtain ⟨rfl, hps₂⟩ := h
          refine ⟨[], (c :: rest).drop len, ?_, by simp, hfacts.2.1,
            hfacts.2.2.1, hfacts.2.2.2.1, hfacts.2.2.2.2.1,
            hfacts.2.2.2.2.2, ?_⟩
          · simpa using hfacts.1
          · exact hps₂.symm
        | cons p ps₁' =>
          simp only [List.cons_append, List.cons.injEq] at h
          obtain ⟨rfl, hrest⟩ := h
          obtain ⟨B', A, hl, hidx, hlen2, hfn⟩ := ih ((c :: rest).drop len)
            (by rw [List.length_drop]; simp only [List.length_cons] at hk ⊢; omega)
            (pos + len) ps₁' m ps₂ hrest
          refine ⟨mkP nm.data vl.data ++ B', A, ?_, ?_, hlen2, hfn⟩
          · rw [List.append_assoc, ← hl]
            exact hfacts.1
          · rw [List.length_append, mkP_length]
            have hleneq : len = nm.data.length + vl.data.length + 3 :=
              hfacts.2.1
            omega

/-- Splitting a filtered list lifts to a split of the underlying list. -/
theorem filter_decomp {α : Type} (p : α → Bool) :
    ∀ (l X : List α) (m : α) (Y : List α),
    l.filter p = X ++ m :: Y →
    ∃ R₁ R₂, l = R₁ ++ m :: R₂ ∧ R₁.filter p = X ∧ R₂.filter p = Y := by
  intro l
  induction l with
  | nil =>
    intro X m Y h
    exact absurd h.symm (by simp)
  | cons a t ih =>
    intro X m Y h
    by_cases hp : p a = true
    · rw [List.filter_cons_of_pos hp] at h
      cases X with
      | nil =>
        simp only [List.nil_append, List.cons.injEq] at h
        obtain ⟨rfl, hY⟩ := h
        exact ⟨[], t, rfl, by simp, hY⟩
      | cons x X' =>
        simp only [List.cons_append, List.cons.injEq] at h
        obtain ⟨rfl, hrest⟩ := h
        obtain ⟨R₁, R₂, hl, h1, h2⟩ := ih X' m Y hrest
        exact ⟨a :: R₁, R₂, by rw [List.cons_append, hl],
          by rw [List.filter_cons_of_pos hp, h1], h2⟩
    · rw [List.filter_cons_of_neg hp] at h
      obtain ⟨R₁, R₂, hl, h1, h2⟩ := ih X m Y h
      exact ⟨a :: R₁, R₂, by rw [List.cons_append, hl],
        by rw [List.filter_cons_of_neg hp, h1], h2⟩

/-- In a strictly index-sorted list, two decompositions around the same
element coincide. -/
theorem sorted_middle_eq {l P X R Y : List PMatch} {m : PMatch}
    (hsort : List.Pairwise (fun a b : PMatch => a.index < b.index) l)
    (h1 : l = P ++ m :: X) (h2 : l = R ++ m :: Y) : P = R ∧ X = Y := by
  have key : ∀ (P' X' : List PMatch), l = P' ++ m :: X' →
      P' = l.filter (fun a => decide (a.index < m.index)) := by
    intro P' X' hP
    have hs := hsort
    rw [hP] at hs
    rw [List.pairwise_append] at hs
    obtain ⟨hP'sort, hmXsort, hcross⟩ := hs
    have hPall : ∀ a ∈ P', a.index < m.index := fun a ha =>
      hcross a ha m (List.mem_cons_self m X')
    have hXall : ∀ b ∈ X', m.index < b.index := by
      intro b hb
      exact (List.pairwise_cons.mp hmXsort).1 b hb
    rw [hP, List.filter_append]
    have e1 : P'.filter (fun a => decide (a.index < m.index)) = P' :=
      List.filter_eq_self.mpr (fun a ha => decide_eq_true (hPall a ha))
    have e2 : (m :: X').filter (fun a => decide (a.index < m.index)) = [] := by
      rw [List.filter_cons_of_neg (by simp)]
      exact List.filter_eq_nil_iff.mpr
        (fun b hb => by simp [Nat.not_lt.mpr (le_of_lt (hXall b hb))])
    rw [e1, e2, List.append_nil]
  have hPR : P = R := by rw [key P X h1, key R Y h2]
  subst hPR
  rw [h1] at h2
  exact ⟨rfl, by cases List.append_cancel_left h2; rfl⟩

theorem data_mk (l : List Char) : (String.mk l).data = l := rfl

theorem extractParameters_eq_scan (code : String) :
    extractParameters code =
      (scan code.data 0).filter (fun m => m.name ∈ paramNames) := rfl

theorem filter_map_shift (Q : List PMatch) (d : ℕ) :
    ((Q.map (fun q => (⟨q.name, q.valueStr, q.index + d, q.length⟩ : PMatch))).filter
        (fun m => m.name ∈ paramNames)) =
      (Q.filter (fun m => m.name ∈ paramNames)).map
        (fun q => (⟨q.name, q.valueStr, q.index + d, q.length⟩ : PMatch)) := by
  rw [List.filter_map]
  rfl

/-- Master decomposition: rewriting match `i` to a digit-dot value
splits both the old and the new extraction into the same prefix, the
(old/new) match at position `i`, and the same tail up to index shifts. -/
theorem extract_update_decomp (code : String) (i : ℕ) (v' : String)
    (m : PMatch) (hv'ne : v'.data ≠ [])
    (hv'd : ∀ c ∈ v'.data, isDigitDot c = true)
    (hm : (extractParameters code)[i]? = some m) :
    ∃ (F Q : List PMatch) (t t' : ℕ),
      F.length = i ∧
      extractParameters code =
        F ++ m :: Q.map (fun q => ⟨q.name, q.valueStr, q.index + t, q.length⟩) ∧
      extractParameters (updateCodeParameter code i v') =
        F ++ (⟨m.name, v', m.index,
            m.name.data.length + v'.data.length + 3⟩ : PMatch) ::
          Q.map (fun q => ⟨q.name, q.valueStr, q.index + t', q.length⟩) := by
  obtain ⟨hi, him⟩ := List.getElem?_eq_some.mp hm
  have hm_mem : m ∈ extractParameters code := him ▸ List.getElem_mem hi
  have hpredm : decide (m.name ∈ paramNames) = true := by
    rw [extractParameters_eq_scan] at hm_mem
    exact @List.of_mem_filter PMatch
      (fun q : PMatch => decide (q.name ∈ paramNames)) m _ hm_mem
  have hsplit : (scan code.data 0).filter (fun q => q.name ∈ paramNames) =
      (extractParameters code).take i ++
        m :: (extractParameters code).drop (i + 1) := by
    rw [← extractParameters_eq_scan, ← him,
      List.getElem_cons_drop (extractParameters code) i hi,
      List.take_append_drop]
  obtain ⟨R₁, R₂, hscan, hR1, hR2⟩ := filter_decomp _ _ _ _ _ hsplit
  obtain ⟨B, A, hcode, hidx, hlen, hnne, hnw, hvne, hvd, hps2⟩ :=
    scan_decomp code.data.length code.data le_rfl 0 R₁ m R₂ hscan
  have hidx' : m.index = B.length := by omega
  have hupdate : updateCodeParameter code i v' =
      String.mk (code.data.take m.index) ++ "." ++ m.name ++ "(" ++ v' ++ ")"
        ++ String.mk (code.data.drop (m.index + m.length)) := by
    simp only [updateCodeParameter, hm]
  have htake : code.data.take m.index = B := by
    rw [hcode, hidx']
    exact List.take_left B _
  have hdrop : code.data.drop (m.index + m.length) = A := by
    have hL : m.index + m.length =
        (B ++ mkP m.name.data m.valueStr.data).length := by
      rw [List.length_append, mkP_length]
      omega
    rw [hcode, ← List.append_assoc, hL]
    exact List.drop_left _ _
  have hdot : ("." : String).data = ['.'] := rfl
  have hlp : ("(" : String).data = ['('] := rfl
  have hrp : (")" : String).data = [')'] := rfl
  have hnew_data : (updateCodeParameter code i v').data =
      B ++ (mkP m.name.data v'.data ++ A) := by
    rw [hupdate]
    simp only [String.data_append, data_mk, htake, hdrop, hdot, hlp, hrp, mkP]
    simp [List.append_assoc]
  obtain ⟨P, hold, hnew⟩ := scan_splice B.length B le_rfl m.name.data
    m.valueStr.data v'.data A 0 hnne hnw hvne hvd hv'ne hv'd
  have hmid : (⟨String.mk m.name.data, String.mk m.valueStr.data,
      0 + B.length, m.name.data.length + m.valueStr.data.length + 3⟩ :
        PMatch) = m := by
    have hm0 : m = (⟨m.name, m.valueStr, m.index, m.length⟩ : PMatch) := rfl
    rw [hm0, hidx, hlen]
  rw [hmid, ← hcode] at hold
  have hsorted := scan_sorted code.data.length code.data le_rfl 0
  obtain ⟨hPR, hTail⟩ := sorted_middle_eq hsorted hold hscan
  have hshift := scan_shift A.length A le_rfl 0
  have hshift_t : ∀ d, scan A d =
      (scan A 0).map (fun q => ⟨q.name, q.valueStr, q.index + d, q.length⟩) := by
    intro d
    have := hshift d
    rwa [Nat.zero_add] at this
  refine ⟨R₁.filter (fun q => q.name ∈ paramNames),
    (scan A 0).filter (fun q => q.name ∈ paramNames),
    0 + B.length + (m.name.data.length + m.valueStr.data.length + 3),
    0 + B.length + (m.name.data.length + v'.data.length + 3), ?_, ?_, ?_⟩
  · rw [hR1, List.length_take]
    omega
  · rw [extractParameters_eq_scan, hscan, List.filter_append,
      @List.filter_cons_of_pos PMatch
        (fun q : PMatch => decide (q.name ∈ paramNames)) m R₂ hpredm]
    congr 1
    congr 1
    rw [hps2]
    rw [show m.index + m.length =
      0 + B.length + (m.name.data.length + m.valueStr.data.length + 3) from by
        omega]
    rw [hshift_t, filter_map_shift]
  · have hprednew : decide ((String.mk m.name.data) ∈ paramNames) = true :=
      hpredm
    rw [extractParameters_eq_scan, hnew_data, hnew, List.filter_append,
      @List.filter_cons_of_pos PMatch
        (fun q : PMatch => decide (q.name ∈ paramNames))
        (⟨String.mk m.name.data, String.mk v'.data, 0 + B.length,
          m.name.data.length + v'.data.length + 3⟩ : PMatch)
        (scan A (0 + B.length + (m.name.data.length + v'.data.length + 3)))
        hprednew]
    rw [hPR]
    congr 1
    · rw [show (⟨String.mk m.name.data, String.mk v'.data, 0 + B.length,
          m.name.data.length + v'.data.length + 3⟩ : PMatch) =
          (⟨m.name, v', m.index, m.name.data.length + v'.data.length + 3⟩ :
            PMatch) from by rw [hidx]]
      congr 1
      rw [hshift_t, filter_map_shift]

theorem jsParseFloat_05 : jsParseFloat "0.5" = some (1/2 : ℚ) := by
  have h1 : ("0.5" : String).data = ['0', '.', '5'] := rfl
  have h2 : List.takeWhile Char.isDigit ['0', '.', '5'] = ['0'] := rfl
  have h3 : List.dropWhile Char.isDigit ['0', '.', '5'] = '.' :: ['5'] := rfl
  have h4 : List.takeWhile Char.isDigit ['5'] = ['5'] := rfl
  have h5 : '0'.toNat - '0'.toNat = 0 := rfl
  have h6 : '5'.toNat - '0'.toNat = 5 := rfl
  rw [jsParseFloat, h1, h2, h3]
  simp only [h4, h5, h6, List.foldl_cons, List.foldl_nil, List.length_cons,
    List.length_nil]
  norm_num

theorem jsParseFloat_09 : jsParseFloat "0.9" = some (9/10 : ℚ) := by
  have h1 : ("0.9" : String).data = ['0', '.', '9'] := rfl
  have h2 : List.takeWhile Char.isDigit ['0', '.', '9'] = ['0'] := rfl
  have h3 : List.dropWhile Char.isDigit ['0', '.', '9'] = '.' :: ['9'] := rfl
  have h4 : List.takeWhile Char.isDigit ['9'] = ['9'] := rfl
  have h5 : '0'.toNat - '0'.toNat = 0 := rfl
  have h6 : '9'.toNat - '0'.toNat = 9 := rfl
  rw [jsParseFloat, h1, h2, h3]
  simp only [h4, h5, h6, List.foldl_cons, List.foldl_nil, List.length_cons,
    List.length_nil]
  norm_num

/-- **C7** (amended): rewriting extracted match `i` to a new value whose
rendered text is a non-empty run of `[0-9.]` characters (as every value
the regex can re-recognize is) preserves the match count, leaves every
other match unchanged in name and value text, and changes exactly
match `i`'s value; and concretely, rewriting the `room` match of
`.gain(0.5).room(0.2)` to `0.9` yields `.gain(0.5).room(0.9)`, whose
re-extraction is two matches named `gain`, `room` with values `0.5` and
`0.9`. (The restriction on the new value's text is needed:
`param_rewrite_negative_value_breaks`.) -/
theorem param_rewrite_local :
    (∀ (code : String) (i : ℕ) (v' : String) (m : PMatch),
      v'.data ≠ [] → (∀ c ∈ v'.data, isDigitDot c = true) →
      (extractParameters code)[i]? = some m →
      (extractParameters (updateCodeParameter code i v')).length =
        (extractParameters code).length ∧
      (∀ j : ℕ, j ≠ i →
        ((extractParameters (updateCodeParameter code i v'))[j]?).map
            PMatch.name =
          ((extractParameters code)[j]?).map PMatch.name ∧
        ((extractParameters (updateCodeParameter code i v'))[j]?).map
            PMatch.valueStr =
          ((extractParameters code)[j]?).map PMatch.valueStr) ∧
      ((extractParameters (updateCodeParameter code i v'))[i]?).map
          PMatch.name = some m.name ∧
      ((extractParameters (updateCodeParameter code i v'))[i]?).map
          PMatch.valueStr = some v') ∧
    updateCodeParameter ".gain(0.5).room(0.2)" 1 "0.9" =
      ".gain(0.5).room(0.9)" ∧
    (extractParameters ".gain(0.5).room(0.9)").map PMatch.name =
      ["gain", "room"] ∧
    (extractParameters ".gain(0.5).room(0.9)").map PMatch.value =
      [some (1/2 : ℚ), some (9/10 : ℚ)] := by
  refine ⟨?_, by decide, by decide, ?_⟩
  · intro code i v' m hv1 hv2 hm
    obtain ⟨F, Q, t, t', hF, hOld, hNew⟩ :=
      extract_update_decomp code i v' m hv1 hv2 hm
    refine ⟨?_, ?_, ?_, ?_⟩
    · rw [hOld, hNew]
      simp
    · intro j hj
      rcases Nat.lt_or_ge j i with hlt | hge
      · rw [hOld, hNew]
        simp only [List.getElem?_append_left
          (show j < F.length from by omega), and_self]
      · have hgt : i < j := lt_of_le_of_ne hge (Ne.symm hj)
        rw [hOld, hNew]
        simp only [List.getElem?_append_right
          (show F.length ≤ j from by omega)]
        rw [show j - F.length = (j - F.length - 1) + 1 from by omega]
        simp only [List.getElem?_cons_succ, List.getElem?_map,
          Option.map_map]
        exact ⟨rfl, rfl⟩
    · rw [hNew,
        List.getElem?_append_right (show F.length ≤ i from by omega),
        show i - F.length = 0 from by omega, List.getElem?_cons_zero]
      rfl
    · rw [hNew,
        List.getElem?_append_right (show F.length ≤ i from by omega),
        show i - F.length = 0 from by omega, List.getElem?_cons_zero]
      rfl
  · rw [show extractParameters ".gain(0.5).room(0.9)" =
        [⟨"gain", "0.5", 0, 10⟩, ⟨"room", "0.9", 10, 10⟩] from by decide]
    simp only [List.map_cons, List.map_nil]
    rw [show PMatch.value ⟨"gain", "0.5", 0, 10⟩ = jsParseFloat "0.5" from rfl,
      show PMatch.value ⟨"room", "0.9", 10, 10⟩ = jsParseFloat "0.9" from rfl,
      jsParseFloat_05, jsParseFloat_09]

/-- **C7** (counterexample): rewriting the sole `pan` match of
`.pan(0.5)` to the value `-1` — reachable from the UI, whose `pan`
slider has minimum `-1` — produces `.pan(-1)`, and re-extraction finds
zero matches instead of one: the regex's value group `[0-9.]+` cannot
match a minus sign, so the claim as stated (for every new value) fails. -/
theorem param_rewrite_negative_value_breaks :
    (extractParameters ".pan(0.5)").length = 1 ∧
    updateCodeParameter ".pan(0.5)" 0 "-1" = ".pan(-1)" ∧
    (extractParameters (updateCodeParameter ".pan(0.5)" 0 "-1")).length = 0 := by
  decide

/-- Witness for the amended C7 at `.gain(0.5)`, rewriting match 0 to
`0.7`. -/
theorem param_rewrite_local_witness :
    ("0.7" : String).data ≠ [] ∧
    (extractParameters ".gain(0.5)")[0]? = some ⟨"gain", "0.5", 0, 10⟩ ∧
    ((extractParameters (updateCodeParameter ".gain(0.5)" 0 "0.7")).length =
        (extractParameters ".gain(0.5)").length ∧
      (∀ j : ℕ, j ≠ 0 →
        ((extractParameters (updateCodeParameter ".gain(0.5)" 0 "0.7"))[j]?).map
            PMatch.name =
          ((extractParameters ".gain(0.5)")[j]?).map PMatch.name ∧
        ((extractParameters (updateCodeParameter ".gain(0.5)" 0 "0.7"))[j]?).map
            PMatch.valueStr =
          ((extractParameters ".gain(0.5)")[j]?).map PMatch.valueStr) ∧
      ((extractParameters (updateCodeParameter ".gain(0.5)" 0 "0.7"))[0]?).map
          PMatch.name = some (PMatch.mk "gain" "0.5" 0 10).name ∧
      ((extractParameters (updateCodeParameter ".gain(0.5)" 0 "0.7"))[0]?).map
          PMatch.valueStr = some "0.7") :=
  ⟨by decide, by decide,
    param_rewrite_local.1 ".gain(0.5)" 0 "0.7" ⟨"gain", "0.5", 0, 10⟩
      (by decide) (by decide) (by decide)⟩

end StrudelBop
